import Mathlib

/-!
Verification of the winget-output parsing and update-classification core of
`win-apps-updater` (`src/winget.rs`).

Rust strings are modelled at the byte level: a `ByteStr` is the list of UTF-8
code units of a `&str`.  Rust operations that can panic (byte-range slicing at
a non-char-boundary, or with `start > end`) return `Option`, where `none`
models the panic.  Fallible Rust functions returning `Result` are modelled
with `Except`.
-/

namespace WingetSpec

/-- A Rust `&str` / `String`, as its list of UTF-8 bytes. -/
abbrev ByteStr := List Nat

/-- Bytes of an ASCII Lean string literal (used for the fixed ASCII literals of
the source). -/
def lit (s : String) : ByteStr := s.toList.map Char.toNat

/-- ASCII whitespace bytes: the single-byte characters matched by Rust
`char::is_whitespace`. -/
def isWS (b : Nat) : Bool := b = 9 || b = 10 || b = 11 || b = 12 || b = 13 || b = 32

/-- Drop trailing bytes satisfying `p`. -/
def dropTrail (p : Nat → Bool) (l : ByteStr) : ByteStr := (l.reverse.dropWhile p).reverse

/-- Rust `str::trim` (restricted to ASCII whitespace). -/
def trim (l : ByteStr) : ByteStr := dropTrail isWS (l.dropWhile isWS)

/-- Prepend a byte to the first chunk of a chunk list (helper for `splitB`). -/
def consHead (b : Nat) : List ByteStr → List ByteStr
  | [] => [[b]]
  | h :: t => (b :: h) :: t

/-- Exact split of a byte string on a separator byte (as `str::split`). -/
def splitB (sep : Nat) : ByteStr → List ByteStr
  | [] => [[]]
  | b :: rest => if b = sep then [] :: splitB sep rest else consHead b (splitB sep rest)

/-- Strip at most one trailing carriage-return byte (as `str::lines` does per line). -/
def stripCR (l : ByteStr) : ByteStr := if l.getLast? = some 13 then l.dropLast else l

/-- Rust `str::lines`: split on `\n`, drop one trailing `\r` per line, and do
not produce a final empty line for a trailing `\n`. -/
def linesOf (s : ByteStr) : List ByteStr :=
  if s = [] then []
  else
    let parts := splitB 10 s
    (if parts.getLast? = some [] then parts.dropLast else parts).map stripCR

/-- Rust `[&str]::join("\n")`. -/
def joinNL : List ByteStr → ByteStr
  | [] => []
  | [l] => l
  | l :: l2 :: rest => l ++ 10 :: joinNL (l2 :: rest)

/-- Rust `str::contains::<&str>` (substring test). -/
def containsSub (needle : ByteStr) : ByteStr → Bool
  | [] => needle.isEmpty
  | b :: t => needle.isPrefixOf (b :: t) || containsSub needle t

/-- Rust `str::find::<&str>`: byte index of the first occurrence. -/
def findSub (needle : ByteStr) : ByteStr → Option Nat
  | [] => if needle.isEmpty then some 0 else none
  | b :: t => if needle.isPrefixOf (b :: t) then some 0 else (findSub needle t).map (· + 1)

/-- Rust `str::rfind::<char>` on a single byte: index of the last occurrence. -/
def rfindB (x : Nat) : ByteStr → Option Nat
  | [] => none
  | b :: t =>
    match rfindB x t with
    | some i => some (i + 1)
    | none => if b = x then some 0 else none

/-- `Iterator::position` over lines. -/
def findIdxO (p : ByteStr → Bool) : List ByteStr → Option Nat
  | [] => none
  | l :: rest => if p l then some 0 else (findIdxO p rest).map (· + 1)

/-- `Iterator::find` over lines. -/
def findO (p : ByteStr → Bool) : List ByteStr → Option ByteStr
  | [] => none
  | l :: rest => if p l then some l else findO p rest

/-- `Iterator::next_back` on a filtered line iterator: last line satisfying `p`. -/
def rfindO (p : ByteStr → Bool) : List ByteStr → Option ByteStr
  | [] => none
  | l :: rest =>
    match rfindO p rest with
    | some x => some x
    | none => if p l then some l else none

/-- UTF-8 continuation byte (`0b10xxxxxx`). -/
def isUtf8Cont (b : Nat) : Bool := 128 ≤ b && b < 192

/-- Rust `str::is_char_boundary`. -/
def isCharBoundary (s : ByteStr) (i : Nat) : Bool :=
  i = 0 || i = s.length || (decide (i < s.length) && !isUtf8Cont (s.getD i 0))

/-- Rust byte-range slicing `&s[a..b]`: `none` models the panic when the range
is inverted, out of bounds, or not on character boundaries. -/
def rustSlice (s : ByteStr) (a b : Nat) : Option ByteStr :=
  if a ≤ b && b ≤ s.length && isCharBoundary s a && isCharBoundary s b then
    some ((s.drop a).take (b - a))
  else none

/-! ## The source functions of `src/winget.rs` -/

/-- `winget.rs`: per line keep only the text after the last `\r`, join with `\n`. -/
def keepAfterCR (l : ByteStr) : ByteStr :=
  match rfindB 13 l with
  | some pos => l.drop (pos + 1)
  | none => l

/-- `winget.rs::sanitize_output`. -/
def sanitize_output (output : ByteStr) : ByteStr :=
  joinNL ((linesOf output).map keepAfterCR)

/-- A line consisting entirely of dashes (`line.chars().all(|c| c == '-')`). -/
def allDash (l : ByteStr) : Bool := l.all (· = 45)

/-- `winget.rs::detect_wrap_width`. -/
def detect_wrap_width : List ByteStr → Option Nat
  | a :: b :: rest =>
    if !a.isEmpty && !b.isEmpty && allDash a && allDash b then some a.length
    else detect_wrap_width (b :: rest)
  | _ => none

/-- The reconstruction loop of `winget.rs::unwrap_output`: concatenate physical
lines into a buffer, flushing whenever the last appended line is shorter than
the wrap width; a non-empty leftover buffer is flushed at the end. -/
def rejoin (width : Nat) : List ByteStr → ByteStr → List ByteStr
  | [], current => if current.isEmpty then [] else [current]
  | l :: rest, current =>
    let current' := current ++ l
    if l.length < width then current' :: rejoin width rest []
    else rejoin width rest current'

/-- `winget.rs::unwrap_output`. -/
def unwrap_output (output : ByteStr) : ByteStr :=
  match detect_wrap_width (linesOf output) with
  | none => output
  | some width => joinNL (rejoin width (linesOf output) [])

/-- `winget.rs::ColumnLayout`. -/
structure ColumnLayout where
  id_col : Nat
  version_col : Nat
  available_col : Nat
  source_col : Nat
deriving DecidableEq, Repr

/-- `models.rs::UpdatableApp` (five strings). -/
structure UpdatableApp where
  name : ByteStr
  id : ByteStr
  version : ByteStr
  available : ByteStr
  source : ByteStr
deriving DecidableEq, Repr

/-- `winget.rs::safe_slice`: clamp both offsets to the length, then slice.
The result is `none` when the clamped slice still panics (non-boundary or
inverted range). -/
def safe_slice (s : ByteStr) (start stop : Nat) : Option ByteStr :=
  rustSlice s (min start s.length) (min stop s.length)

/-- `winget.rs::parse_app_line`.  `some none` models Rust's `None` (line
dropped); the outer `none` models a panic in one of the slicing operations. -/
def parse_app_line (line : ByteStr) (layout : ColumnLayout) : Option (Option UpdatableApp) :=
  if line.length ≤ layout.id_col then some none
  else
    match safe_slice line 0 layout.id_col,
          safe_slice line layout.id_col layout.version_col,
          safe_slice line layout.version_col layout.available_col,
          safe_slice line layout.available_col layout.source_col,
          (if layout.source_col < line.length then
            rustSlice line layout.source_col line.length
          else some []) with
    | some n, some i, some v, some a, some s =>
      let name := trim n
      let id := trim i
      if name.isEmpty || id.isEmpty then some none
      else some (some ⟨name, id, trim v, trim a, trim s⟩)
    | _, _, _, _, _ => none

/-- The header-line predicate of `parse_winget_output`:
`line.contains("Name") && line.contains("Id") && line.contains("Version")`. -/
def headerPred (l : ByteStr) : Bool :=
  containsSub (lit "Name") l && containsSub (lit "Id") l && containsSub (lit "Version") l

/-- The data-start computation of `parse_winget_output`: index one past the
first separator-looking line after the header, else directly after the header. -/
def dataStart (lines : List ByteStr) (hidx : Nat) : Nat :=
  match findIdxO (fun l => containsSub (lit "---") l && decide (l.length > 20))
      (lines.drop (hidx + 1)) with
  | some j => hidx + 1 + j + 1
  | none => hidx + 1

/-- The record-collection loop of `parse_winget_output`: stop at a blank or
summary line, push parsed records, skip dropped lines; `none` models a panic. -/
def collectApps (layout : ColumnLayout) : List ByteStr → Option (List UpdatableApp)
  | [] => some []
  | l :: rest =>
    let t := trim l
    if t.isEmpty || containsSub (lit "upgrades available") t then some []
    else
      match parse_app_line l layout with
      | none => none
      | some none => collectApps layout rest
      | some (some app) => (collectApps layout rest).map (app :: ·)

/-- `parse_winget_output` after the sanitize/unwrap stages, operating on the
final list of lines. -/
def parseLines (lines : List ByteStr) : Option (Except ByteStr (List UpdatableApp)) :=
  match findIdxO headerPred lines with
  | none => some (Except.ok [])
  | some idx =>
    let header := lines.getD idx []
    match findSub (lit "Id") header, findSub (lit "Version") header,
          findSub (lit "Available") header, findSub (lit "Source") header with
    | some ic, some vc, some ac, some sc =>
      (collectApps ⟨ic, vc, ac, sc⟩ (lines.drop (dataStart lines idx))).map Except.ok
    | none, _, _, _ => some (Except.error (lit "Missing Id column in winget output"))
    | some _, none, _, _ => some (Except.error (lit "Missing Version column in winget output"))
    | some _, some _, none, _ =>
      some (Except.error (lit "Missing Available column in winget output"))
    | some _, some _, some _, none =>
      some (Except.error (lit "Missing Source column in winget output"))

/-- The line list seen by the parser proper: the input after sanitizing and
unwrapping, split into lines. -/
def pipelineLines (output : ByteStr) : List ByteStr :=
  linesOf (unwrap_output (sanitize_output output))

/-- `winget.rs::parse_winget_output`.  `none` models a panic, `some (.error e)`
the `Err` result, `some (.ok apps)` the `Ok` result. -/
def parse_winget_output (output : ByteStr) : Option (Except ByteStr (List UpdatableApp)) :=
  parseLines (pipelineLines output)

/-- The needs-close phrase test of `winget.rs::classify_update_result`. -/
def needsClosePhrase (combined : ByteStr) : Bool :=
  containsSub (lit "application must be closed") combined
    || containsSub (lit "Close the application") combined
    || containsSub (lit "currently in use") combined
    || containsSub (lit "close all instances") combined

/-- `winget.rs::classify_success`. -/
def classify_success (app_id stdout : ByteStr) : ByteStr :=
  if containsSub (lit "Successfully installed") stdout
      || containsSub (lit "successfully") stdout then
    lit "SUCCESS:" ++ app_id ++ lit " - updated successfully"
  else if containsSub (lit "No applicable update found") stdout
      || containsSub (lit "No newer package versions") stdout then
    lit "[i] " ++ app_id ++ lit " - already up to date"
  else if containsSub (lit "No package found") stdout then
    lit "FAILURE:" ++ app_id ++ lit " - package not found"
  else
    lit "SUCCESS:" ++ app_id ++ lit " - completed"

/-- `winget.rs::extract_error`.  `none` models the panic of `&msg[..100]` when
byte 100 of the diagnostic is not a character boundary. -/
def extract_error (stdout combined : ByteStr) : Option ByteStr :=
  let stderr_part :=
    trim ((findO (fun l => !(trim l).isEmpty) (linesOf combined)).getD (lit "Unknown error"))
  let msg :=
    if !stderr_part.isEmpty && stderr_part ≠ trim stdout then stderr_part
    else trim ((rfindO (fun l => !(trim l).isEmpty) (linesOf stdout)).getD (lit "Update failed"))
  if msg.length > 100 then rustSlice msg 0 100 else some msg

/-- `winget.rs::classify_update_result`.  `none` models a panic inside
`extract_error`; `some (.ok m)` / `some (.error m)` are the `Ok` / `Err`
result strings. -/
def classify_update_result (app_id : ByteStr) (success : Bool) (stdout combined : ByteStr) :
    Option (Except ByteStr ByteStr) :=
  if needsClosePhrase combined then
    some (Except.ok (lit "[!] " ++ app_id ++ lit " - needs to be closed before updating"))
  else if success then
    some (Except.ok (classify_success app_id stdout))
  else
    (extract_error stdout combined).map
      (fun m => Except.error (lit "FAILURE:" ++ app_id ++ lit " - " ++ m))

/-- The combined text built by `winget.rs::update_single_app`:
`format!("{stdout}\n{stderr}")`. -/
def combinedOf (stdout stderr : ByteStr) : ByteStr := stdout ++ 10 :: stderr

instance {ε α : Type} [DecidableEq ε] [DecidableEq α] : DecidableEq (Except ε α) := fun x y =>
  match x, y with
  | .ok a, .ok b =>
    if h : a = b then .isTrue (by rw [h]) else .isFalse (by intro hc; cases hc; exact h rfl)
  | .error a, .error b =>
    if h : a = b then .isTrue (by rw [h]) else .isFalse (by intro hc; cases hc; exact h rfl)
  | .ok _, .error _ => .isFalse (by intro hc; cases hc)
  | .error _, .ok _ => .isFalse (by intro hc; cases hc)

/-! ## Specification-side definitions

These follow the wording of the specification and of the claims; they are the
yardsticks the source functions are compared against. -/

/-- Remove a single trailing newline byte, if present. -/
def stripNL (s : ByteStr) : ByteStr := if s.getLast? = some 10 then s.dropLast else s

/-- The whitespace-trimmed slice of a data row between two byte offsets
(clamped to the row, as a list slice is). -/
def expectedField (r : ByteStr) (a b : Nat) : ByteStr := trim ((r.drop a).take (b - a))

/-- The record the spec prescribes for a data row `r` under a column layout:
`name = [0, id)`, `id = [id, version)`, `version = [version, available)`,
`available = [available, source)`, `source = [source, end)`, all trimmed. -/
def expectedRecord (L : ColumnLayout) (r : ByteStr) : UpdatableApp :=
  ⟨trim (r.take L.id_col),
    expectedField r L.id_col L.version_col,
    expectedField r L.version_col L.available_col,
    expectedField r L.available_col L.source_col,
    trim (r.drop L.source_col)⟩

/-- The column offsets of a layout are nondecreasing (the header labels occur
left to right). -/
@[reducible] def monotone (L : ColumnLayout) : Prop :=
  L.id_col ≤ L.version_col ∧ L.version_col ≤ L.available_col ∧ L.available_col ≤ L.source_col

/-- The clamped offset `min i r.length` is a character boundary of `r`
(always true for ASCII rows). -/
def boundaryAt (r : ByteStr) (i : Nat) : Bool := isCharBoundary r (min i r.length)

/-- All four column offsets of a layout sit on character boundaries of a row
once clamped to the row length. -/
@[reducible] def rowBoundaries (L : ColumnLayout) (r : ByteStr) : Prop :=
  boundaryAt r L.id_col = true ∧ boundaryAt r L.version_col = true ∧
    boundaryAt r L.available_col = true ∧ boundaryAt r L.source_col = true

/-- A well-formed header line: contains the label `Name`, and the four labels
`Id`, `Version`, `Available`, `Source` first occur at the layout's offsets, in
left-to-right order; no embedded newline or carriage return. -/
@[reducible] def goodHeader (h : ByteStr) (L : ColumnLayout) : Prop :=
  (10 : Nat) ∉ h ∧ (13 : Nat) ∉ h ∧ containsSub (lit "Name") h = true ∧
    findSub (lit "Id") h = some L.id_col ∧ findSub (lit "Version") h = some L.version_col ∧
    findSub (lit "Available") h = some L.available_col ∧
    findSub (lit "Source") h = some L.source_col ∧ monotone L

/-- A well-formed data row for a layout: a plain single line, not a dash run,
not blank, not a summary line, long enough to reach the id column, sliceable
at the (clamped) column offsets, and with non-blank name and id fields. -/
@[reducible] def goodRow (L : ColumnLayout) (r : ByteStr) : Prop :=
  (10 : Nat) ∉ r ∧ (13 : Nat) ∉ r ∧ allDash r = false ∧ trim r ≠ [] ∧
    containsSub (lit "upgrades available") (trim r) = false ∧
    L.id_col < r.length ∧ rowBoundaries L r ∧
    trim (r.take L.id_col) ≠ [] ∧ expectedField r L.id_col L.version_col ≠ []

/-- An optional summary footer: absent, or a single plain line whose trimmed
content contains the phrase `upgrades available` (hence non-blank, non-dash). -/
@[reducible] def goodFooter : List ByteStr → Prop
  | [] => True
  | [x] => (10 : Nat) ∉ x ∧ (13 : Nat) ∉ x ∧ allDash x = false ∧
      containsSub (lit "upgrades available") (trim x) = true
  | _ => False

/-- The logical lines of a well-formed winget block: header, a separator of
`m` dashes, the data rows, then the optional footer. -/
def blockLines (h : ByteStr) (m : Nat) (rows footer : List ByteStr) : List ByteStr :=
  h :: List.replicate m 45 :: (rows ++ footer)

/-- The text of a well-formed winget block (lines joined by `\n`). -/
def blockText (h : ByteStr) (m : Nat) (rows footer : List ByteStr) : ByteStr :=
  joinNL (blockLines h m rows footer)

/-- Console wrapping of one logical line at width `w`: a line longer than `w`
becomes two physical lines, the first exactly `w` bytes, the rest shorter
(when the line is shorter than `2*w`); other lines stay as they are. -/
def wrapLine (w : Nat) (l : ByteStr) : List ByteStr :=
  if w < l.length then [l.take w, l.drop w] else [l]

/-- The physical lines of a block after console wrapping at width `w`. -/
def wrapLines (w : Nat) (ls : List ByteStr) : List ByteStr := ls.flatMap (wrapLine w)

/-- First non-blank line of a text (the spec's diagnostic preference). -/
def firstNonBlank (s : ByteStr) : Option ByteStr :=
  findO (fun l => !(trim l).isEmpty) (linesOf s)

/-- Last non-blank line of a text (the spec's fallback diagnostic). -/
def lastNonBlank (s : ByteStr) : Option ByteStr :=
  rfindO (fun l => !(trim l).isEmpty) (linesOf s)

/-- The diagnostic detail of a generic failure, as the (amended) spec words it:
the first non-blank line of the combined output if it differs from stdout's
trimmed content, else the last non-blank line of stdout, else a fixed default
string; truncated to its first 100 bytes. -/
def detailSpec (stdout combined : ByteStr) : ByteStr :=
  (match firstNonBlank combined with
    | some l => if trim l ≠ trim stdout then trim l
        else trim ((lastNonBlank stdout).getD (lit "Update failed"))
    | none => lit "Unknown error").take 100

/-! ## One-step equations for the recursive definitions -/

theorem splitB_nil (sep : Nat) : splitB sep [] = [[]] := rfl

theorem splitB_cons (sep b : Nat) (rest : ByteStr) :
    splitB sep (b :: rest) =
      if b = sep then [] :: splitB sep rest else consHead b (splitB sep rest) := rfl

theorem consHead_cases (b : Nat) (p : ByteStr) (ps : List ByteStr) :
    consHead b (p :: ps) = (b :: p) :: ps := rfl

theorem joinNL_nil : joinNL [] = [] := rfl

theorem joinNL_single (l : ByteStr) : joinNL [l] = l := rfl

theorem joinNL_cons₂ (l l2 : ByteStr) (rest : List ByteStr) :
    joinNL (l :: l2 :: rest) = l ++ 10 :: joinNL (l2 :: rest) := rfl

theorem containsSub_cons (needle : ByteStr) (b : Nat) (t : ByteStr) :
    containsSub needle (b :: t) = (needle.isPrefixOf (b :: t) || containsSub needle t) := rfl

theorem findSub_cons (needle : ByteStr) (b : Nat) (t : ByteStr) :
    findSub needle (b :: t) =
      if needle.isPrefixOf (b :: t) then some 0 else (findSub needle t).map (· + 1) := rfl

theorem findIdxO_cons (p : ByteStr → Bool) (l : ByteStr) (rest : List ByteStr) :
    findIdxO p (l :: rest) = if p l then some 0 else (findIdxO p rest).map (· + 1) := rfl

theorem findO_cons (p : ByteStr → Bool) (l : ByteStr) (rest : List ByteStr) :
    findO p (l :: rest) = if p l then some l else findO p rest := rfl

theorem rfindO_cons (p : ByteStr → Bool) (l : ByteStr) (rest : List ByteStr) :
    rfindO p (l :: rest) =
      match rfindO p rest with
      | some x => some x
      | none => if p l then some l else none := rfl

theorem detect_cons₂ (a b : ByteStr) (rest : List ByteStr) :
    detect_wrap_width (a :: b :: rest) =
      if !a.isEmpty && !b.isEmpty && allDash a && allDash b then some a.length
      else detect_wrap_width (b :: rest) := rfl

theorem rejoin_nil (width : Nat) (current : ByteStr) :
    rejoin width [] current = if current.isEmpty then [] else [current] := rfl

theorem rejoin_cons (width : Nat) (l : ByteStr) (rest : List ByteStr) (current : ByteStr) :
    rejoin width (l :: rest) current =
      if l.length < width then (current ++ l) :: rejoin width rest []
      else rejoin width rest (current ++ l) := rfl

theorem collectApps_cons (layout : ColumnLayout) (l : ByteStr) (rest : List ByteStr) :
    collectApps layout (l :: rest) =
      if (trim l).isEmpty || containsSub (lit "upgrades available") (trim l) then some []
      else
        match parse_app_line l layout with
        | none => none
        | some none => collectApps layout rest
        | some (some app) => (collectApps layout rest).map (app :: ·) := rfl

/-! ## Lemmas on splitting and joining lines -/

theorem splitB_ne_nil (sep : Nat) : ∀ s : ByteStr, splitB sep s ≠ []
  | [] => by simp [splitB]
  | b :: rest => by
    rw [splitB_cons]
    split
    · simp
    · cases h : splitB sep rest with
      | nil => simp [consHead]
      | cons x xs => simp [consHead]

theorem joinNL_consHead (b : Nat) (ls : List ByteStr) (h : ls ≠ []) :
    joinNL (consHead b ls) = b :: joinNL ls := by
  match ls with
  | [] => exact absurd rfl h
  | [x] => rfl
  | x :: y :: t => rfl

theorem joinNL_splitB (s : ByteStr) : joinNL (splitB 10 s) = s := by
  induction s with
  | nil => rfl
  | cons b rest ih =>
    simp only [splitB]
    by_cases hb : b = 10
    · rw [if_pos hb]
      obtain ⟨p, ps, hp⟩ := List.exists_cons_of_ne_nil (splitB_ne_nil 10 rest)
      rw [hp] at ih ⊢
      show 10 :: joinNL (p :: ps) = b :: rest
      rw [ih, hb]
    · rw [if_neg hb, joinNL_consHead b _ (splitB_ne_nil 10 rest), ih]

theorem splitB_of_not_mem (sep : Nat) : ∀ s : ByteStr, sep ∉ s → splitB sep s = [s]
  | [], _ => rfl
  | b :: rest, h => by
    have hb : ¬b = sep := fun hc => h (hc ▸ List.mem_cons_self b rest)
    have hr : sep ∉ rest := fun hc => h (List.mem_cons_of_mem b hc)
    simp only [splitB, if_neg hb, splitB_of_not_mem sep rest hr, consHead]

theorem splitB_append (sep : Nat) : ∀ a s : ByteStr, sep ∉ a →
    splitB sep (a ++ sep :: s) = a :: splitB sep s
  | [], s, _ => by
    show splitB sep (sep :: s) = [] :: splitB sep s
    rw [splitB_cons, if_pos rfl]
  | c :: a', s, h => by
    have hc : ¬c = sep := fun hx => h (hx ▸ List.mem_cons_self c a')
    have ha : sep ∉ a' := fun hx => h (List.mem_cons_of_mem c hx)
    show splitB sep (c :: (a' ++ sep :: s)) = (c :: a') :: splitB sep s
    rw [splitB_cons, if_neg hc, splitB_append sep a' s ha, consHead_cases]

theorem splitB_joinNL : ∀ ls : List ByteStr, ls ≠ [] → (∀ l ∈ ls, (10 : Nat) ∉ l) →
    splitB 10 (joinNL ls) = ls
  | [], h, _ => absurd rfl h
  | [x], _, h => by
    simpa [joinNL] using splitB_of_not_mem 10 x (h x (List.mem_singleton_self x))
  | x :: y :: t, _, h => by
    have hx : (10 : Nat) ∉ x := h x (List.mem_cons_self x _)
    show splitB 10 (x ++ 10 :: joinNL (y :: t)) = x :: (y :: t)
    rw [splitB_append 10 x _ hx,
      splitB_joinNL (y :: t) (by simp) (fun l hl => h l (List.mem_cons_of_mem x hl))]

theorem mem_of_mem_splitB {sep b : Nat} : ∀ {s l : ByteStr}, l ∈ splitB sep s → b ∈ l → b ∈ s
  | [], l, hl, hb => by
    simp only [splitB, List.mem_singleton] at hl
    subst hl
    exact absurd hb (List.not_mem_nil b)
  | c :: rest, l, hl, hb => by
    simp only [splitB] at hl
    by_cases hc : c = sep
    · rw [if_pos hc] at hl
      rcases List.mem_cons.mp hl with rfl | hl'
      · exact absurd hb (List.not_mem_nil b)
      · exact List.mem_cons_of_mem c (mem_of_mem_splitB hl' hb)
    · rw [if_neg hc] at hl
      cases hps : splitB sep rest with
      | nil => exact absurd hps (splitB_ne_nil sep rest)
      | cons p ps =>
        rw [hps, consHead_cases] at hl
        rcases List.mem_cons.mp hl with rfl | hl'
        · rcases List.mem_cons.mp hb with rfl | hb'
          · exact List.mem_cons_self b rest
          · exact List.mem_cons_of_mem c
              (mem_of_mem_splitB (hps ▸ List.mem_cons_self p ps) hb')
        · exact List.mem_cons_of_mem c
            (mem_of_mem_splitB (hps ▸ List.mem_cons_of_mem p hl') hb)

theorem mem_splitB_exists {sep b : Nat} : ∀ {s : ByteStr}, b ∈ s →
    b = sep ∨ ∃ l ∈ splitB sep s, b ∈ l
  | [], hb => absurd hb (List.not_mem_nil b)
  | c :: rest, hb => by
    by_cases hc : c = sep
    · rcases List.mem_cons.mp hb with rfl | hb'
      · exact Or.inl hc
      · rcases mem_splitB_exists hb' with h | ⟨l, hl, hbl⟩
        · exact Or.inl h
        · exact Or.inr ⟨l, by simp [splitB, if_pos hc, List.mem_cons_of_mem _ hl], hbl⟩
    · cases hps : splitB sep rest with
      | nil => exact absurd hps (splitB_ne_nil sep rest)
      | cons p ps =>
        rcases List.mem_cons.mp hb with rfl | hb'
        · refine Or.inr ⟨b :: p, ?_, List.mem_cons_self b p⟩
          simp [splitB, if_neg hc, hps, consHead_cases]
        · rcases mem_splitB_exists hb' with h | ⟨l, hl, hbl⟩
          · exact Or.inl h
          · rw [hps] at hl
            rcases List.mem_cons.mp hl with rfl | hl'
            · refine Or.inr ⟨c :: l, ?_, List.mem_cons_of_mem c hbl⟩
              simp [splitB, if_neg hc, hps, consHead_cases]
            · refine Or.inr ⟨l, ?_, hbl⟩
              simp [splitB, if_neg hc, hps, consHead_cases, List.mem_cons_of_mem _ hl']

theorem getLast?_splitB : ∀ s : ByteStr, s ≠ [] →
    ((splitB 10 s).getLast? = some [] ↔ s.getLast? = some 10)
  | [], h => absurd rfl h
  | [b], _ => by
    by_cases hb : b = 10
    · subst hb; simp [splitB, consHead]
    · simp [splitB, if_neg hb, consHead, hb]
  | b :: c :: t, _ => by
    have ih := getLast?_splitB (c :: t) (by simp)
    rw [List.getLast?_cons_cons]
    by_cases hb : b = 10
    · rw [splitB_cons, if_pos hb]
      cases hps : splitB 10 (c :: t) with
      | nil => exact absurd hps (splitB_ne_nil 10 _)
      | cons p ps =>
        rw [List.getLast?_cons_cons]
        rw [hps] at ih
        exact ih
    · rw [splitB_cons, if_neg hb]
      cases hps : splitB 10 (c :: t) with
      | nil => exact absurd hps (splitB_ne_nil 10 _)
      | cons p ps =>
        rw [consHead_cases]
        rw [hps] at ih
        cases ps with
        | nil =>
          simp only [List.getLast?_singleton] at ih ⊢
          constructor
          · intro hx
            exact absurd (Option.some.inj hx) (List.cons_ne_nil b p)
          · intro hx
            have hp : p = [] := by
              have := ih.mpr hx
              exact Option.some.inj this
            subst hp
            have : joinNL (splitB 10 (c :: t)) = c :: t := joinNL_splitB (c :: t)
            rw [hps] at this
            exact absurd this.symm (List.cons_ne_nil c t)
        | cons q qs =>
          rw [List.getLast?_cons_cons, ← List.getLast?_cons_cons (a := p)]
          exact ih

theorem stripCR_of_not_mem {l : ByteStr} (h : (13 : Nat) ∉ l) : stripCR l = l := by
  rw [stripCR, if_neg]
  intro hc
  exact h (List.mem_of_mem_getLast? (Option.mem_def.mpr hc))

theorem joinNL_ne_nil : ∀ ls : List ByteStr, ls ≠ [] → (∀ l ∈ ls, l ≠ []) → joinNL ls ≠ []
  | [], h, _ => absurd rfl h
  | [x], _, h => h x (List.mem_singleton_self x)
  | x :: y :: t, _, _ => by
    show x ++ 10 :: joinNL (y :: t) ≠ []
    simp

theorem linesOf_joinNL (ls : List ByteStr) (h0 : ls ≠ []) (hne : ∀ l ∈ ls, l ≠ [])
    (h10 : ∀ l ∈ ls, (10 : Nat) ∉ l) (h13 : ∀ l ∈ ls, (13 : Nat) ∉ l) :
    linesOf (joinNL ls) = ls := by
  rw [linesOf, if_neg (joinNL_ne_nil ls h0 hne)]
  rw [splitB_joinNL ls h0 h10]
  show List.map stripCR (if ls.getLast? = some [] then ls.dropLast else ls) = ls
  rw [if_neg (fun hc : ls.getLast? = some [] =>
    hne [] (List.mem_of_mem_getLast? (Option.mem_def.mpr hc)) rfl)]
  rw [List.map_congr_left (fun l hl => stripCR_of_not_mem (h13 l hl)), List.map_id']

theorem mem_of_mem_stripCR {b : Nat} {l : ByteStr} (h : b ∈ stripCR l) : b ∈ l := by
  rw [stripCR] at h
  split at h
  · exact (List.dropLast_sublist l).subset h
  · exact h

theorem mem_of_mem_linesOf {b : Nat} {l s : ByteStr} (hl : l ∈ linesOf s) (hb : b ∈ l) :
    b ∈ s := by
  rw [linesOf] at hl
  split at hl
  · exact absurd hl (List.not_mem_nil l)
  · obtain ⟨l', hl', rfl⟩ := List.mem_map.mp hl
    have hl'' : l' ∈ splitB 10 s := by
      revert hl'
      split
      · exact fun hx => (List.dropLast_sublist _).subset hx
      · exact id
    exact mem_of_mem_splitB hl'' (mem_of_mem_stripCR hb)

theorem rfindB_eq_none {x : Nat} : ∀ {l : ByteStr}, x ∉ l → rfindB x l = none
  | [], _ => rfl
  | b :: t, h => by
    have hb : ¬b = x := fun hc => h (hc ▸ List.mem_cons_self b t)
    have ht : x ∉ t := fun hc => h (List.mem_cons_of_mem b hc)
    simp [rfindB, rfindB_eq_none ht, hb]

theorem keepAfterCR_of_not_mem {l : ByteStr} (h : (13 : Nat) ∉ l) : keepAfterCR l = l := by
  rw [keepAfterCR, rfindB_eq_none h]

theorem sanitize_output_joinNL (ls : List ByteStr) (h0 : ls ≠ []) (hne : ∀ l ∈ ls, l ≠ [])
    (h10 : ∀ l ∈ ls, (10 : Nat) ∉ l) (h13 : ∀ l ∈ ls, (13 : Nat) ∉ l) :
    sanitize_output (joinNL ls) = joinNL ls := by
  rw [sanitize_output, linesOf_joinNL ls h0 hne h10 h13,
    List.map_congr_left (fun l hl => keepAfterCR_of_not_mem (h13 l hl)), List.map_id']

theorem joinNL_concat_nil (xs : List ByteStr) :
    joinNL (xs ++ [[]]) = if xs = [] then [] else joinNL xs ++ [10] := by
  match xs with
  | [] => rfl
  | [a] => rfl
  | a :: b :: t =>
    show a ++ 10 :: joinNL ((b :: t) ++ [[]]) = (a ++ 10 :: joinNL (b :: t)) ++ [10]
    rw [joinNL_concat_nil (b :: t), if_neg (List.cons_ne_nil b t)]
    simp

theorem sanitize_output_noCR {s : ByteStr} (h : (13 : Nat) ∉ s) :
    sanitize_output s = stripNL s := by
  by_cases hs : s = []
  · subst hs; rfl
  · have hkeep : ∀ l ∈ linesOf s, keepAfterCR l = l := by
      intro l hl
      exact keepAfterCR_of_not_mem (fun hc => h (mem_of_mem_linesOf hl hc))
    rw [sanitize_output, List.map_congr_left hkeep, List.map_id']
    have h13 : ∀ l ∈ splitB 10 s, (13 : Nat) ∉ l :=
      fun l hl hc => h (mem_of_mem_splitB hl hc)
    rw [linesOf, if_neg hs]
    show joinNL (List.map stripCR
      (if (splitB 10 s).getLast? = some [] then (splitB 10 s).dropLast else splitB 10 s)) =
      stripNL s
    by_cases hlast : (splitB 10 s).getLast? = some []
    · rw [if_pos hlast]
      rw [List.map_congr_left
        (fun l hl => stripCR_of_not_mem (h13 l ((List.dropLast_sublist _).subset hl))),
        List.map_id']
      have hsplit : (splitB 10 s).dropLast ++ [[]] = splitB 10 s := by
        have hx := List.dropLast_concat_getLast (splitB_ne_nil 10 s)
        have hy : (splitB 10 s).getLast (splitB_ne_nil 10 s) = [] := by
          exact (List.getLast_eq_iff_getLast_eq_some (splitB_ne_nil 10 s)).mpr hlast
        rw [hy] at hx
        exact hx
      have hjoin : s = joinNL ((splitB 10 s).dropLast ++ [[]]) := by
        rw [hsplit, joinNL_splitB]
      rw [joinNL_concat_nil] at hjoin
      by_cases hdl : (splitB 10 s).dropLast = []
      · rw [if_pos hdl] at hjoin
        exact absurd hjoin hs
      · rw [if_neg hdl] at hjoin
        have hlast10 : s.getLast? = some 10 := (getLast?_splitB s hs).mp hlast
        rw [stripNL, if_pos hlast10]
        conv_rhs => rw [hjoin]
        rw [List.dropLast_concat]
    · rw [if_neg hlast]
      rw [List.map_congr_left (fun l hl => stripCR_of_not_mem (h13 l hl)), List.map_id']
      rw [joinNL_splitB, stripNL, if_neg]
      intro hc
      exact hlast ((getLast?_splitB s hs).mpr hc)

/-! ## Wrap detection and unwrap no-op lemmas -/

/-- The relation between adjacent lines that prevents wrap detection. -/
@[reducible] def NoPairRel (a b : ByteStr) : Prop :=
  allDash a = false ∨ allDash b = false ∨ a = [] ∨ b = []

theorem detect_none_chain : ∀ ls : List ByteStr, List.Chain' NoPairRel ls →
    detect_wrap_width ls = none
  | [], _ => rfl
  | [_], _ => rfl
  | a :: b :: rest, h => by
    obtain ⟨hab, h'⟩ := List.chain'_cons.mp h
    have hcond : (!a.isEmpty && !b.isEmpty && allDash a && allDash b) = false := by
      rcases hab with h1 | h1 | h1 | h1 <;> simp [h1]
    rw [detect_cons₂, hcond]
    simpa using detect_none_chain (b :: rest) h'

theorem unwrap_output_of_detect_none {s : ByteStr}
    (h : detect_wrap_width (linesOf s) = none) : unwrap_output s = s := by
  simp only [unwrap_output, h]

theorem chain'_noPair_of_allDash_false (s : ByteStr) : ∀ ls : List ByteStr,
    (∀ x ∈ ls, allDash x = false) → List.Chain' NoPairRel (s :: ls)
  | [], _ => List.chain'_singleton s
  | x :: t, h => by
    rw [List.chain'_cons]
    exact ⟨Or.inr (Or.inl (h x (List.mem_cons_self x t))),
      chain'_noPair_of_allDash_false x t (fun y hy => h y (List.mem_cons_of_mem x hy))⟩

/-! ## Trim and substring lemmas -/

theorem trim_nil : trim [] = [] := rfl

theorem dropTrail_eq_nil_iff {p : Nat → Bool} {l : ByteStr} :
    dropTrail p l = [] ↔ ∀ b ∈ l, p b = true := by
  rw [dropTrail]
  constructor
  · intro h b hb
    have hrev : l.reverse.dropWhile p = [] := by
      have := congrArg List.reverse h
      simpa using this
    exact List.dropWhile_eq_nil_iff.mp hrev b (List.mem_reverse.mpr hb)
  · intro h
    have hrev : l.reverse.dropWhile p = [] :=
      List.dropWhile_eq_nil_iff.mpr (fun x hx => h x (List.mem_reverse.mp hx))
    rw [hrev]
    rfl

theorem forall_mem_dropWhile_iff {p : Nat → Bool} {l : ByteStr} :
    (∀ b ∈ l.dropWhile p, p b = true) ↔ ∀ b ∈ l, p b = true := by
  constructor
  · intro h b hb
    rw [← List.takeWhile_append_dropWhile p l] at hb
    rcases List.mem_append.mp hb with h1 | h2
    · exact List.mem_takeWhile_imp h1
    · exact h b h2
  · intro h b hb
    exact h b ((List.dropWhile_sublist p).subset hb)

theorem trim_eq_nil_iff {l : ByteStr} : trim l = [] ↔ ∀ b ∈ l, isWS b = true := by
  rw [trim, dropTrail_eq_nil_iff]
  exact forall_mem_dropWhile_iff

theorem mem_of_mem_trim {b : Nat} {l : ByteStr} (h : b ∈ trim l) : b ∈ l := by
  rw [trim, dropTrail] at h
  have h2 : b ∈ List.dropWhile isWS (l.dropWhile isWS).reverse := List.mem_reverse.mp h
  have h3 : b ∈ (l.dropWhile isWS).reverse := (List.dropWhile_sublist _).subset h2
  exact (List.dropWhile_sublist _).subset (List.mem_reverse.mp h3)

theorem ne_nil_of_trim_ne_nil {l : ByteStr} (h : trim l ≠ []) : l ≠ [] := by
  intro hc
  exact h (hc ▸ trim_nil)

theorem mem_of_containsSub {b : Nat} : ∀ {n h : ByteStr},
    containsSub n h = true → b ∈ n → b ∈ h
  | n, [], hc, hb => by
    have : n = [] := by simpa [containsSub, List.isEmpty_iff] using hc
    exact absurd hb (this ▸ List.not_mem_nil b)
  | n, c :: t, hc, hb => by
    rw [containsSub_cons, Bool.or_eq_true] at hc
    rcases hc with h1 | h2
    · exact (List.isPrefixOf_iff_prefix.mp h1).mem hb
    · exact List.mem_cons_of_mem c (mem_of_containsSub h2 hb)

theorem containsSub_ne_nil {n h : ByteStr} (hc : containsSub n h = true) (hn : n ≠ []) :
    h ≠ [] := by
  obtain ⟨b, hb⟩ := List.exists_mem_of_ne_nil n hn
  exact List.ne_nil_of_mem (mem_of_containsSub hc hb)

theorem containsSub_of_findSub : ∀ {n h : ByteStr} {i : Nat},
    findSub n h = some i → containsSub n h = true
  | n, [], i, hf => by
    by_cases hn : n.isEmpty = true
    · exact hn
    · rw [show findSub n [] = if n.isEmpty then some 0 else none from rfl, if_neg hn] at hf
      exact absurd hf (by simp)
  | n, c :: t, i, hf => by
    rw [findSub_cons] at hf
    rw [containsSub_cons, Bool.or_eq_true]
    split at hf
    · exact Or.inl (by assumption)
    · rcases Option.map_eq_some'.mp hf with ⟨j, hj, _⟩
      exact Or.inr (containsSub_of_findSub hj)

theorem allDash_false_of_mem {l : ByteStr} {b : Nat} (hb : b ∈ l) (hne : b ≠ 45) :
    allDash l = false := by
  cases h : allDash l with
  | false => rfl
  | true =>
    have := List.all_eq_true.mp h b hb
    simp only [decide_eq_true_eq] at this
    exact absurd this hne

theorem allDash_false_of_containsSub {n h : ByteStr} {b : Nat} (hc : containsSub n h = true)
    (hb : b ∈ n) (hne : b ≠ 45) : allDash h = false :=
  allDash_false_of_mem (mem_of_containsSub hc hb) hne

/-! ## Slicing lemmas -/

theorem isCharBoundary_zero (s : ByteStr) : isCharBoundary s 0 = true := by
  simp [isCharBoundary]

theorem isCharBoundary_length (s : ByteStr) : isCharBoundary s s.length = true := by
  simp [isCharBoundary]

theorem clamp_take_drop (s : ByteStr) (a b : Nat) (hab : a ≤ b) :
    (s.drop (min a s.length)).take (min b s.length - min a s.length) =
      (s.drop a).take (b - a) := by
  by_cases ha : a ≤ s.length
  · rw [min_eq_left ha]
    by_cases hb : b ≤ s.length
    · rw [min_eq_left hb]
    · have hlb : s.length ≤ b := le_of_lt (lt_of_not_ge hb)
      rw [min_eq_right hlb]
      have hlen : (s.drop a).length = s.length - a := List.length_drop a s
      rw [List.take_of_length_le (by rw [hlen]),
        List.take_of_length_le (by rw [hlen]; omega)]
  · have hla : s.length ≤ a := le_of_not_le ha
    have hlb : s.length ≤ b := le_trans hla hab
    rw [min_eq_right hla, min_eq_right hlb, Nat.sub_self,
      List.drop_eq_nil_of_le hla]
    simp

theorem safe_slice_eq {s : ByteStr} {a b : Nat} (hab : a ≤ b)
    (hba : boundaryAt s a = true) (hbb : boundaryAt s b = true) :
    safe_slice s a b = some ((s.drop a).take (b - a)) := by
  rw [boundaryAt] at hba hbb
  rw [safe_slice, rustSlice, if_pos, clamp_take_drop s a b hab]
  simp only [Bool.and_eq_true, decide_eq_true_eq]
  exact ⟨⟨⟨min_le_min hab le_rfl, min_le_right b s.length⟩, hba⟩, hbb⟩

theorem boundaryAt_of_ascii {s : ByteStr} (hascii : ∀ b ∈ s, b < 128) (i : Nat) :
    boundaryAt s i = true := by
  rw [boundaryAt, isCharBoundary]
  by_cases h0 : min i s.length = 0
  · simp [h0]
  · by_cases hl : min i s.length = s.length
    · simp [hl]
    · have hlt : min i s.length < s.length := lt_of_le_of_ne (min_le_right i s.length) hl
      have hmem : s.getD (min i s.length) 0 ∈ s := by
        rw [List.getD_eq_getElem?_getD, List.getElem?_eq_getElem hlt]
        exact List.getElem_mem hlt
      have hcont : isUtf8Cont (s.getD (min i s.length) 0) = false := by
        have hb := hascii _ hmem
        have h1 : decide (128 ≤ s.getD (min i s.length) 0) = false :=
          decide_eq_false (by omega)
        simp only [isUtf8Cont]
        rw [h1, Bool.false_and]
      simp only [Bool.or_eq_true, decide_eq_true_eq, Bool.and_eq_true, Bool.not_eq_true']
      exact Or.inr ⟨hlt, hcont⟩

/-! ## Evaluating `parse_app_line` and the record loop -/

theorem boundaryAt_zero (s : ByteStr) : boundaryAt s 0 = true := by
  rw [boundaryAt, Nat.zero_min]
  exact isCharBoundary_zero s

theorem parse_app_line_eval (line : ByteStr) (L : ColumnLayout) (hmono : monotone L)
    (hb : rowBoundaries L line) (hlen : L.id_col < line.length) :
    parse_app_line line L =
      if (trim (line.take L.id_col)).isEmpty ||
          (expectedField line L.id_col L.version_col).isEmpty
      then some none else some (some (expectedRecord L line)) := by
  obtain ⟨h1, h2, h3⟩ := hmono
  obtain ⟨b1, b2, b3, b4⟩ := hb
  have hname : safe_slice line 0 L.id_col = some (line.take L.id_col) := by
    have := safe_slice_eq (Nat.zero_le L.id_col) (boundaryAt_zero line) b1
    simpa using this
  have hid : safe_slice line L.id_col L.version_col =
      some ((line.drop L.id_col).take (L.version_col - L.id_col)) := safe_slice_eq h1 b1 b2
  have hver : safe_slice line L.version_col L.available_col =
      some ((line.drop L.version_col).take (L.available_col - L.version_col)) :=
    safe_slice_eq h2 b2 b3
  have hav : safe_slice line L.available_col L.source_col =
      some ((line.drop L.available_col).take (L.source_col - L.available_col)) :=
    safe_slice_eq h3 b3 b4
  have hsrc : (if L.source_col < line.length then
        rustSlice line L.source_col line.length
      else some []) = some (line.drop L.source_col) := by
    by_cases hs : L.source_col < line.length
    · rw [if_pos hs, rustSlice, if_pos]
      · rw [List.take_of_length_le (by rw [List.length_drop])]
      · have hbsc : isCharBoundary line L.source_col = true := by
          have hx := b4
          rw [boundaryAt, min_eq_left (le_of_lt hs)] at hx
          exact hx
        simp only [Bool.and_eq_true, decide_eq_true_eq]
        exact ⟨⟨⟨le_of_lt hs, le_rfl⟩, hbsc⟩, isCharBoundary_length line⟩
    · rw [if_neg hs]
      rw [List.drop_eq_nil_of_le (le_of_not_lt hs)]
  rw [parse_app_line, if_neg (not_le.mpr hlen), hname, hid, hver, hav, hsrc]
  simp only [expectedField, expectedRecord]

theorem collectApps_break (L : ColumnLayout) (footer : List ByteStr) (hf : goodFooter footer) :
    collectApps L footer = some [] := by
  match footer, hf with
  | [], _ => rfl
  | [x], ⟨_, _, _, hcont⟩ =>
    rw [collectApps_cons, if_pos]
    rw [hcont]
    simp

theorem collectApps_goodRows (L : ColumnLayout) (hmono : monotone L) :
    ∀ rows : List ByteStr, ∀ footer : List ByteStr, (∀ r ∈ rows, goodRow L r) →
    goodFooter footer →
    collectApps L (rows ++ footer) = some (rows.map (expectedRecord L))
  | [], footer, _, hf => by
    rw [List.nil_append, collectApps_break L footer hf]
    rfl
  | r :: rest, footer, hr, hf => by
    obtain ⟨_, _, _, htrim, hphrase, hlen, hbound, hname, hid⟩ :=
      hr r (List.mem_cons_self r rest)
    have hcond : ((trim r).isEmpty || containsSub (lit "upgrades available") (trim r)) =
        false := by
      rw [hphrase, List.isEmpty_eq_false.mpr htrim]
      rfl
    have hcond2 : ((trim (r.take L.id_col)).isEmpty ||
        (expectedField r L.id_col L.version_col).isEmpty) = false := by
      rw [List.isEmpty_eq_false.mpr hname, List.isEmpty_eq_false.mpr hid]
      rfl
    rw [List.cons_append, collectApps_cons, hcond]
    simp only [Bool.false_eq_true, if_false]
    rw [parse_app_line_eval r L hmono hbound hlen, hcond2]
    simp only [Bool.false_eq_true, if_false]
    rw [collectApps_goodRows L hmono rest footer
      (fun x hx => hr x (List.mem_cons_of_mem r hx)) hf]
    rfl

/-! ## Parsing a well-formed block -/

theorem blockLines_basic (h : ByteStr) (m : Nat) (rows footer : List ByteStr)
    (L : ColumnLayout) (Hh : goodHeader h L) (Hm : 20 < m) (Hr : ∀ r ∈ rows, goodRow L r)
    (Hf : goodFooter footer) :
    ∀ l ∈ blockLines h m rows footer, l ≠ [] ∧ (10 : Nat) ∉ l ∧ (13 : Nat) ∉ l := by
  intro l hl
  obtain ⟨h10, h13, hname, _⟩ := Hh
  rcases List.mem_cons.mp hl with rfl | hl2
  · exact ⟨containsSub_ne_nil hname (by decide), h10, h13⟩
  rcases List.mem_cons.mp hl2 with rfl | hl3
  · refine ⟨?_, ?_, ?_⟩
    · simp only [ne_eq, List.replicate_eq_nil_iff]
      omega
    · intro hc
      have := List.eq_of_mem_replicate hc
      omega
    · intro hc
      have := List.eq_of_mem_replicate hc
      omega
  rcases List.mem_append.mp hl3 with hl4 | hl5
  · obtain ⟨hr10, hr13, _, htrim, _⟩ := Hr l hl4
    exact ⟨ne_nil_of_trim_ne_nil htrim, hr10, hr13⟩
  · match footer, Hf with
    | [], _ => exact absurd hl5 (List.not_mem_nil l)
    | [x], ⟨f10, f13, _, fcont⟩ =>
      rcases List.mem_singleton.mp hl5 with rfl
      refine ⟨?_, f10, f13⟩
      exact ne_nil_of_trim_ne_nil (containsSub_ne_nil fcont (by decide))

theorem blockLines_detect_none (h : ByteStr) (m : Nat) (rows footer : List ByteStr)
    (L : ColumnLayout) (Hh : goodHeader h L) (Hr : ∀ r ∈ rows, goodRow L r)
    (Hf : goodFooter footer) :
    detect_wrap_width (blockLines h m rows footer) = none := by
  apply detect_none_chain
  have hdashes : ∀ x ∈ rows ++ footer, allDash x = false := by
    intro x hx
    rcases List.mem_append.mp hx with h1 | h2
    · exact (Hr x h1).2.2.1
    · match footer, Hf with
      | [], _ => exact absurd h2 (List.not_mem_nil x)
      | [y], ⟨_, _, fdash, _⟩ =>
        rcases List.mem_singleton.mp h2 with rfl
        exact fdash
  refine List.chain'_cons.mpr ⟨?_, chain'_noPair_of_allDash_false _ _ hdashes⟩
  exact Or.inl (@allDash_false_of_containsSub (lit "Name") h 78 Hh.2.2.1 (by decide) (by decide))

theorem pipelineLines_block (h : ByteStr) (m : Nat) (rows footer : List ByteStr)
    (L : ColumnLayout) (Hh : goodHeader h L) (Hm : 20 < m) (Hr : ∀ r ∈ rows, goodRow L r)
    (Hf : goodFooter footer) :
    pipelineLines (blockText h m rows footer) = blockLines h m rows footer := by
  have hbasic := blockLines_basic h m rows footer L Hh Hm Hr Hf
  have hne : blockLines h m rows footer ≠ [] := List.cons_ne_nil _ _
  have hlines : linesOf (blockText h m rows footer) = blockLines h m rows footer :=
    linesOf_joinNL _ hne (fun l hl => (hbasic l hl).1) (fun l hl => (hbasic l hl).2.1)
      (fun l hl => (hbasic l hl).2.2)
  have hsan : sanitize_output (blockText h m rows footer) = blockText h m rows footer :=
    sanitize_output_joinNL _ hne (fun l hl => (hbasic l hl).1) (fun l hl => (hbasic l hl).2.1)
      (fun l hl => (hbasic l hl).2.2)
  rw [pipelineLines, hsan, unwrap_output_of_detect_none, hlines]
  rw [hlines]
  exact blockLines_detect_none h m rows footer L Hh Hr Hf

theorem containsSub_dashes (m : Nat) (hm : 3 ≤ m) :
    containsSub (lit "---") (List.replicate m 45) = true := by
  obtain ⟨k, rfl⟩ : ∃ k, m = k + 3 := ⟨m - 3, by omega⟩
  rw [List.replicate_succ, List.replicate_succ, List.replicate_succ]
  rw [containsSub_cons]
  have hlit : lit "---" = [45, 45, 45] := by decide
  rw [hlit]
  simp [List.isPrefixOf]

theorem headerPred_good {h : ByteStr} {L : ColumnLayout} (Hh : goodHeader h L) :
    headerPred h = true := by
  obtain ⟨_, _, hname, hid, hver, _⟩ := Hh
  rw [headerPred, hname, containsSub_of_findSub hid, containsSub_of_findSub hver]
  rfl

theorem findIdxO_block (h : ByteStr) (m : Nat) (rows footer : List ByteStr)
    (L : ColumnLayout) (Hh : goodHeader h L) :
    findIdxO headerPred (blockLines h m rows footer) = some 0 := by
  rw [blockLines, findIdxO_cons, if_pos (headerPred_good Hh)]

theorem dataStart_block (h : ByteStr) (m : Nat) (rows footer : List ByteStr) (Hm : 20 < m) :
    dataStart (blockLines h m rows footer) 0 = 2 := by
  rw [dataStart]
  have hdrop : (blockLines h m rows footer).drop 1 = List.replicate m 45 :: (rows ++ footer) :=
    rfl
  rw [hdrop, findIdxO_cons, if_pos]
  rw [containsSub_dashes m (by omega), List.length_replicate]
  simp only [Bool.true_and, decide_eq_true_eq]
  omega

theorem parseLines_eq_of_no_header {lines : List ByteStr}
    (h : findIdxO headerPred lines = none) : parseLines lines = some (Except.ok []) := by
  simp only [parseLines, h]

theorem parseLines_eq_of_header {lines : List ByteStr} {idx : Nat}
    (h : findIdxO headerPred lines = some idx) :
    parseLines lines =
      (match findSub (lit "Id") (lines.getD idx []), findSub (lit "Version") (lines.getD idx []),
          findSub (lit "Available") (lines.getD idx []),
          findSub (lit "Source") (lines.getD idx []) with
        | some ic, some vc, some ac, some sc =>
          (collectApps ⟨ic, vc, ac, sc⟩ (lines.drop (dataStart lines idx))).map Except.ok
        | none, _, _, _ => some (Except.error (lit "Missing Id column in winget output"))
        | some _, none, _, _ =>
          some (Except.error (lit "Missing Version column in winget output"))
        | some _, some _, none, _ =>
          some (Except.error (lit "Missing Available column in winget output"))
        | some _, some _, some _, none =>
          some (Except.error (lit "Missing Source column in winget output"))) := by
  simp only [parseLines, h]

theorem parseLines_block (h : ByteStr) (m : Nat) (rows footer : List ByteStr)
    (L : ColumnLayout) (Hh : goodHeader h L) (Hm : 20 < m) (Hr : ∀ r ∈ rows, goodRow L r)
    (Hf : goodFooter footer) :
    parseLines (blockLines h m rows footer) = some (Except.ok (rows.map (expectedRecord L))) := by
  obtain ⟨h10, h13, hname, hid, hver, hav, hsrc, hmono⟩ := Hh
  rw [parseLines_eq_of_header (findIdxO_block h m rows footer L
    ⟨h10, h13, hname, hid, hver, hav, hsrc, hmono⟩)]
  have hget : (blockLines h m rows footer).getD 0 [] = h := rfl
  rw [hget, hid, hver, hav, hsrc, dataStart_block h m rows footer Hm]
  show (collectApps ⟨L.id_col, L.version_col, L.available_col, L.source_col⟩
      ((blockLines h m rows footer).drop 2)).map Except.ok =
    some (Except.ok (rows.map (expectedRecord L)))
  have heta : (⟨L.id_col, L.version_col, L.available_col, L.source_col⟩ : ColumnLayout) = L :=
    rfl
  have hdrop : (blockLines h m rows footer).drop 2 = rows ++ footer := rfl
  rw [heta, hdrop, collectApps_goodRows L hmono rows footer Hr Hf]
  rfl

theorem parse_app_line_name_id {line : ByteStr} {L : ColumnLayout} {app : UpdatableApp}
    (h : parse_app_line line L = some (some app)) : app.name ≠ [] ∧ app.id ≠ [] := by
  rw [parse_app_line] at h
  split at h
  · exact absurd (Option.some.inj h) (by simp)
  · split at h
    · next n i v a s heq1 heq2 heq3 heq4 heq5 =>
      by_cases hcond : ((trim n).isEmpty || (trim i).isEmpty) = true
      · rw [if_pos hcond] at h
        exact absurd (Option.some.inj h) (by simp)
      · rw [if_neg hcond] at h
        have happ := Option.some.inj (Option.some.inj h)
        simp only [Bool.or_eq_true, not_or, Bool.not_eq_true, List.isEmpty_eq_false] at hcond
        rw [← happ]
        exact hcond
    · exact absurd h (by simp)

theorem collectApps_name_id (L : ColumnLayout) : ∀ (ls : List ByteStr)
    (apps : List UpdatableApp), collectApps L ls = some apps →
    ∀ a ∈ apps, a.name ≠ [] ∧ a.id ≠ []
  | [], apps, h, a, ha => by
    have : apps = [] := (Option.some.inj h).symm
    subst this
    exact absurd ha (List.not_mem_nil a)
  | l :: rest, apps, h, a, ha => by
    rw [collectApps_cons] at h
    split at h
    · have : apps = [] := (Option.some.inj h).symm
      subst this
      exact absurd ha (List.not_mem_nil a)
    · split at h
      · exact absurd h (by simp)
      · exact collectApps_name_id L rest apps h a ha
      · next app' hline =>
        rcases hx : collectApps L rest with _ | rest'
        · rw [hx] at h
          exact absurd h (by simp)
        · rw [hx] at h
          have happs : app' :: rest' = apps := Option.some.inj h
          subst happs
          rcases List.mem_cons.mp ha with rfl | ha'
          · exact parse_app_line_name_id hline
          · exact collectApps_name_id L rest rest' hx a ha'

/-! ## Wrapping and unwrapping round-trip lemmas -/

theorem allDash_replicate (k : Nat) : allDash (List.replicate k 45) = true := by
  apply List.all_eq_true.mpr
  intro b hb
  simp [List.eq_of_mem_replicate hb]

theorem detect_skip {a b : ByteStr} {rest : List ByteStr}
    (h : (!a.isEmpty && !b.isEmpty && allDash a && allDash b) = false) :
    detect_wrap_width (a :: b :: rest) = detect_wrap_width (b :: rest) := by
  rw [detect_cons₂, h]
  simp

theorem detect_append_nodash : ∀ xs ys : List ByteStr, (∀ x ∈ xs, allDash x = false) →
    detect_wrap_width (xs ++ ys) = detect_wrap_width ys
  | [], _, _ => rfl
  | [x], ys, h => by
    cases ys with
    | nil => rfl
    | cons y yt =>
      show detect_wrap_width (x :: y :: yt) = detect_wrap_width (y :: yt)
      exact detect_skip (by simp [h x (List.mem_singleton_self x)])
  | x1 :: x2 :: xt, ys, h => by
    show detect_wrap_width (x1 :: (x2 :: xt ++ ys)) = detect_wrap_width ys
    have hx2 : x2 :: xt ++ ys = x2 :: (xt ++ ys) := rfl
    rw [hx2, detect_skip (by simp [h x1 (List.mem_cons_self x1 _)])]
    exact detect_append_nodash (x2 :: xt) ys (fun x hx => h x (List.mem_cons_of_mem x1 hx))

theorem wrapLine_subset {W : Nat} {l f : ByteStr} (hf : f ∈ wrapLine W l) : f ⊆ l := by
  rw [wrapLine] at hf
  split at hf
  · rcases List.mem_cons.mp hf with rfl | hf2
    · exact List.take_subset W l
    · rcases List.mem_singleton.mp hf2 with rfl
      exact List.drop_subset W l
  · rcases List.mem_singleton.mp hf with rfl
    exact fun _ hx => hx

theorem wrapLine_ne_nil {W : Nat} {l f : ByteStr} (hW : 0 < W) (hl : l ≠ [])
    (hf : f ∈ wrapLine W l) : f ≠ [] := by
  rw [wrapLine] at hf
  split at hf
  · next hlen =>
    rcases List.mem_cons.mp hf with rfl | hf2
    · apply List.ne_nil_of_length_pos
      rw [List.length_take]
      omega
    · rcases List.mem_singleton.mp hf2 with rfl
      apply List.ne_nil_of_length_pos
      rw [List.length_drop]
      omega
  · rcases List.mem_singleton.mp hf with rfl
    exact hl

theorem rejoin_wrapLines (W : Nat) : ∀ ls : List ByteStr,
    (∀ l ∈ ls, l.length ≠ W ∧ l.length < 2 * W) → rejoin W (wrapLines W ls) [] = ls
  | [], _ => rfl
  | l :: rest, h => by
    obtain ⟨hne, hlt⟩ := h l (List.mem_cons_self l rest)
    have ih := rejoin_wrapLines W rest (fun x hx => h x (List.mem_cons_of_mem l hx))
    rw [wrapLines, List.flatMap_cons]
    by_cases hw : W < l.length
    · rw [wrapLine, if_pos hw]
      show rejoin W (l.take W :: l.drop W :: wrapLines W rest) [] = l :: rest
      have hlen1 : (l.take W).length = W := by
        rw [List.length_take]
        omega
      have hlen2 : (l.drop W).length = l.length - W := List.length_drop W l
      rw [rejoin_cons, if_neg (by omega)]
      rw [List.nil_append, rejoin_cons, if_pos (by omega)]
      rw [List.take_append_drop, ih]
    · rw [wrapLine, if_neg hw]
      show rejoin W (l :: wrapLines W rest) [] = l :: rest
      rw [rejoin_cons, if_pos (by omega), List.nil_append, ih]

theorem detect_wrapped_block (h : ByteStr) (m : Nat) (rows footer : List ByteStr) (W : Nat)
    (hW : 0 < W) (hWm : W < m) (hfrag : ∀ f ∈ wrapLine W h, allDash f = false) :
    detect_wrap_width (wrapLines W (blockLines h m rows footer)) = some W := by
  have hsplit : wrapLines W (blockLines h m rows footer) =
      wrapLine W h ++ (wrapLine W (List.replicate m 45) ++ wrapLines W (rows ++ footer)) := by
    rw [blockLines, wrapLines, List.flatMap_cons, List.flatMap_cons]
    rfl
  rw [hsplit, detect_append_nodash (wrapLine W h) _ hfrag]
  have hsep : wrapLine W (List.replicate m 45) =
      [List.replicate W 45, List.replicate (m - W) 45] := by
    rw [wrapLine, if_pos (by rw [List.length_replicate]; omega)]
    rw [List.take_replicate, List.drop_replicate, min_eq_left (le_of_lt hWm)]
  rw [hsep]
  show detect_wrap_width
    (List.replicate W 45 :: List.replicate (m - W) 45 :: wrapLines W (rows ++ footer)) = some W
  rw [detect_cons₂, if_pos]
  · rw [List.length_replicate]
  · have h1 : (List.replicate W 45).isEmpty = false := by
      rw [List.isEmpty_eq_false]
      simp only [ne_eq, List.replicate_eq_nil_iff]
      omega
    have h2 : (List.replicate (m - W) 45).isEmpty = false := by
      rw [List.isEmpty_eq_false]
      simp only [ne_eq, List.replicate_eq_nil_iff]
      omega
    rw [h1, h2, allDash_replicate, allDash_replicate]
    rfl

theorem unwrap_wrapped_block (h : ByteStr) (m : Nat) (rows footer : List ByteStr)
    (L : ColumnLayout) (W : Nat) (Hh : goodHeader h L) (Hm : 20 < m)
    (Hr : ∀ r ∈ rows, goodRow L r) (Hf : goodFooter footer) (hW : 0 < W) (hWm : W < m)
    (hm2 : m < 2 * W) (hfrag : ∀ f ∈ wrapLine W h, allDash f = false)
    (hlens : ∀ l ∈ blockLines h m rows footer, l.length ≠ W ∧ l.length < 2 * W) :
    unwrap_output (joinNL (wrapLines W (blockLines h m rows footer))) =
      blockText h m rows footer := by
  have hbasic := blockLines_basic h m rows footer L Hh Hm Hr Hf
  have hfacts : ∀ f ∈ wrapLines W (blockLines h m rows footer),
      f ≠ [] ∧ (10 : Nat) ∉ f ∧ (13 : Nat) ∉ f := by
    intro f hf
    obtain ⟨l, hl, hfl⟩ := List.mem_flatMap.mp hf
    obtain ⟨hlne, hl10, hl13⟩ := hbasic l hl
    exact ⟨wrapLine_ne_nil hW hlne hfl, fun hc => hl10 (wrapLine_subset hfl hc),
      fun hc => hl13 (wrapLine_subset hfl hc)⟩
  have hWLne : wrapLines W (blockLines h m rows footer) ≠ [] := by
    rw [blockLines, wrapLines, List.flatMap_cons]
    intro hc
    rcases List.append_eq_nil.mp hc with ⟨hc1, _⟩
    rw [wrapLine] at hc1
    revert hc1
    split <;> simp
  have hlines : linesOf (joinNL (wrapLines W (blockLines h m rows footer))) =
      wrapLines W (blockLines h m rows footer) :=
    linesOf_joinNL _ hWLne (fun l hl => (hfacts l hl).1) (fun l hl => (hfacts l hl).2.1)
      (fun l hl => (hfacts l hl).2.2)
  have hdet := detect_wrapped_block h m rows footer W hW hWm hfrag
  simp only [unwrap_output, hlines, hdet]
  rw [rejoin_wrapLines W _ hlens]
  rfl

theorem pipelineLines_wrapped_block (h : ByteStr) (m : Nat) (rows footer : List ByteStr)
    (L : ColumnLayout) (W : Nat) (Hh : goodHeader h L) (Hm : 20 < m)
    (Hr : ∀ r ∈ rows, goodRow L r) (Hf : goodFooter footer) (hW : 0 < W) (hWm : W < m)
    (hm2 : m < 2 * W) (hfrag : ∀ f ∈ wrapLine W h, allDash f = false)
    (hlens : ∀ l ∈ blockLines h m rows footer, l.length ≠ W ∧ l.length < 2 * W) :
    pipelineLines (joinNL (wrapLines W (blockLines h m rows footer))) =
      blockLines h m rows footer := by
  have hbasic := blockLines_basic h m rows footer L Hh Hm Hr Hf
  have hfacts : ∀ f ∈ wrapLines W (blockLines h m rows footer),
      f ≠ [] ∧ (10 : Nat) ∉ f ∧ (13 : Nat) ∉ f := by
    intro f hf
    obtain ⟨l, hl, hfl⟩ := List.mem_flatMap.mp hf
    obtain ⟨hlne, hl10, hl13⟩ := hbasic l hl
    exact ⟨wrapLine_ne_nil hW hlne hfl, fun hc => hl10 (wrapLine_subset hfl hc),
      fun hc => hl13 (wrapLine_subset hfl hc)⟩
  have hWLne : wrapLines W (blockLines h m rows footer) ≠ [] := by
    rw [blockLines, wrapLines, List.flatMap_cons]
    intro hc
    rcases List.append_eq_nil.mp hc with ⟨hc1, _⟩
    rw [wrapLine] at hc1
    revert hc1
    split <;> simp
  have hsan : sanitize_output (joinNL (wrapLines W (blockLines h m rows footer))) =
      joinNL (wrapLines W (blockLines h m rows footer)) :=
    sanitize_output_joinNL _ hWLne (fun l hl => (hfacts l hl).1)
      (fun l hl => (hfacts l hl).2.1) (fun l hl => (hfacts l hl).2.2)
  rw [pipelineLines, hsan,
    unwrap_wrapped_block h m rows footer L W Hh Hm Hr Hf hW hWm hm2 hfrag hlens]
  have hblock := blockLines_basic h m rows footer L Hh Hm Hr Hf
  exact linesOf_joinNL _ (List.cons_ne_nil _ _) (fun l hl => (hblock l hl).1)
    (fun l hl => (hblock l hl).2.1) (fun l hl => (hblock l hl).2.2)

/-! ## Classifier lemmas -/

theorem findO_eq_some {p : ByteStr → Bool} : ∀ {ls : List ByteStr} {x : ByteStr},
    findO p ls = some x → x ∈ ls ∧ p x = true
  | [], x, h => absurd h (by simp [findO])
  | l :: rest, x, h => by
    rw [findO_cons] at h
    split at h
    · cases Option.some.inj h
      exact ⟨List.mem_cons_self l rest, by assumption⟩
    · obtain ⟨hmem, hp⟩ := findO_eq_some h
      exact ⟨List.mem_cons_of_mem l hmem, hp⟩

theorem findO_eq_none {p : ByteStr → Bool} : ∀ {ls : List ByteStr},
    findO p ls = none → ∀ x ∈ ls, p x = false
  | [], _, x, hx => absurd hx (List.not_mem_nil x)
  | l :: rest, h, x, hx => by
    rw [findO_cons] at h
    split at h
    · exact absurd h (by simp)
    · rcases List.mem_cons.mp hx with rfl | hx2
      · next hp => exact Bool.not_eq_true _ ▸ hp
      · exact findO_eq_none h x hx2

theorem mem_stripCR_or {b : Nat} {p : ByteStr} (hb : b ∈ p) : b ∈ stripCR p ∨ b = 13 := by
  rw [stripCR]
  split
  · next hlast =>
    have hpne : p ≠ [] := List.ne_nil_of_mem hb
    have hp : p.dropLast ++ [p.getLast hpne] = p := List.dropLast_concat_getLast hpne
    have hlastv : p.getLast hpne = 13 :=
      (List.getLast_eq_iff_getLast_eq_some hpne).mpr hlast
    rw [← hp] at hb
    rcases List.mem_append.mp hb with h1 | h2
    · exact Or.inl h1
    · rcases List.mem_singleton.mp h2 with rfl
      exact Or.inr hlastv
  · exact Or.inl hb

theorem mem_dropLast_or_getLast {α : Type} {l : List α} {x : α} (hx : x ∈ l) :
    x ∈ l.dropLast ∨ l.getLast? = some x := by
  have hne : l ≠ [] := List.ne_nil_of_mem hx
  have hl : l.dropLast ++ [l.getLast hne] = l := List.dropLast_concat_getLast hne
  rw [← hl] at hx
  rcases List.mem_append.mp hx with h1 | h2
  · exact Or.inl h1
  · rcases List.mem_singleton.mp h2 with rfl
    exact Or.inr (List.getLast?_eq_getLast l hne)

theorem linesOf_eq (s : ByteStr) (hs : s ≠ []) :
    linesOf s = (if (splitB 10 s).getLast? = some [] then (splitB 10 s).dropLast
      else splitB 10 s).map stripCR := by
  rw [linesOf, if_neg hs]

theorem all_ws_of_blank_lines {s : ByteStr} (h : ∀ l ∈ linesOf s, trim l = []) :
    ∀ b ∈ s, isWS b = true := by
  intro b hb
  have hs : s ≠ [] := List.ne_nil_of_mem hb
  rcases @mem_splitB_exists 10 b s hb with rfl | ⟨p, hp, hbp⟩
  · rfl
  · have hline : ∀ q ∈ splitB 10 s, stripCR q ∈ linesOf s ∨ (splitB 10 s).getLast? = some q ∧
        (splitB 10 s).getLast? = some [] := by
      intro q hq
      by_cases hlast : (splitB 10 s).getLast? = some []
      · rcases mem_dropLast_or_getLast hq with h1 | h2
        · refine Or.inl ?_
          rw [linesOf_eq s hs, if_pos hlast]
          exact List.mem_map_of_mem stripCR h1
        · exact Or.inr ⟨h2, hlast⟩
      · refine Or.inl ?_
        rw [linesOf_eq s hs, if_neg hlast]
        exact List.mem_map_of_mem stripCR hq
    rcases hline p hp with hmem | ⟨h2, h3⟩
    · rcases mem_stripCR_or hbp with hbs | rfl
      · exact trim_eq_nil_iff.mp (h _ hmem) b hbs
      · rfl
    · rw [h2] at h3
      cases Option.some.inj h3
      exact absurd hbp (List.not_mem_nil b)

theorem ascii_combinedOf {stdout stderr : ByteStr} (h1 : ∀ b ∈ stdout, b < 128)
    (h2 : ∀ b ∈ stderr, b < 128) : ∀ b ∈ combinedOf stdout stderr, b < 128 := by
  intro b hb
  rw [combinedOf] at hb
  rcases List.mem_append.mp hb with hx | hx
  · exact h1 b hx
  · rcases List.mem_cons.mp hx with rfl | hx2
    · omega
    · exact h2 b hx2

theorem truncate_eq {msg : ByteStr} (hascii : ∀ b ∈ msg, b < 128) :
    (if msg.length > 100 then rustSlice msg 0 100 else some msg) = some (msg.take 100) := by
  by_cases hl : msg.length > 100
  · rw [if_pos hl, rustSlice, if_pos]
    · simp
    · have hb100 : isCharBoundary msg 100 = true := by
        have hx := boundaryAt_of_ascii hascii 100
        rw [boundaryAt, min_eq_left (by omega)] at hx
        exact hx
      simp only [Bool.and_eq_true, decide_eq_true_eq]
      exact ⟨⟨⟨by omega, by omega⟩, isCharBoundary_zero msg⟩, hb100⟩
  · rw [if_neg hl, List.take_of_length_le (by omega)]

theorem ascii_of_mem_trim {l : ByteStr} (h : ∀ b ∈ l, b < 128) :
    ∀ b ∈ trim l, b < 128 := fun b hb => h b (mem_of_mem_trim hb)

theorem ascii_of_mem_linesOf {s l : ByteStr} (h : ∀ b ∈ s, b < 128) (hl : l ∈ linesOf s) :
    ∀ b ∈ l, b < 128 := fun b hb => h b (mem_of_mem_linesOf hl hb)

theorem rfindO_eq_some {p : ByteStr → Bool} : ∀ {ls : List ByteStr} {x : ByteStr},
    rfindO p ls = some x → x ∈ ls ∧ p x = true
  | [], x, h => absurd h (by simp [rfindO])
  | l :: rest, x, h => by
    rw [rfindO_cons] at h
    rcases hy : rfindO p rest with _ | z
    · rw [hy] at h
      by_cases hp : p l = true
      · rw [if_pos hp] at h
        obtain rfl := Option.some.inj h
        exact ⟨List.mem_cons_self _ _, hp⟩
      · rw [if_neg hp] at h
        exact absurd h (by simp)
    · rw [hy] at h
      obtain rfl := Option.some.inj h
      obtain ⟨hm, hp⟩ := rfindO_eq_some hy
      exact ⟨List.mem_cons_of_mem l hm, hp⟩

theorem extract_error_spec (stdout stderr : ByteStr) (h1 : ∀ b ∈ stdout, b < 128)
    (h2 : ∀ b ∈ stderr, b < 128) :
    extract_error stdout (combinedOf stdout stderr) =
      some (detailSpec stdout (combinedOf stdout stderr)) := by
  have hcascii : ∀ b ∈ combinedOf stdout stderr, b < 128 := ascii_combinedOf h1 h2
  simp only [extract_error]
  cases hfind : findO (fun l => !(trim l).isEmpty) (linesOf (combinedOf stdout stderr)) with
  | some l =>
    obtain ⟨hmem, hp⟩ := findO_eq_some hfind
    have hlascii : ∀ b ∈ trim l, b < 128 :=
      ascii_of_mem_trim (ascii_of_mem_linesOf hcascii hmem)
    have hne : (trim l).isEmpty = false := by
      rwa [Bool.not_eq_true'] at hp
    rw [detailSpec, firstNonBlank, hfind]
    simp only [Option.getD_some]
    by_cases hcase : trim l ≠ trim stdout
    · rw [if_pos hcase]
      have hcond : (!(trim l).isEmpty && decide (trim l ≠ trim stdout)) = true := by
        rw [hne, decide_eq_true hcase]
        rfl
      rw [if_pos hcond]
      exact truncate_eq hlascii
    · rw [if_neg hcase]
      have hcond : (!(trim l).isEmpty && decide (trim l ≠ trim stdout)) = false := by
        rw [decide_eq_false hcase, Bool.and_false]
      have hcondneg : ¬((!(trim l).isEmpty && decide (trim l ≠ trim stdout)) = true) := by
        rw [hcond]
        exact Bool.false_ne_true
      rw [if_neg hcondneg]
      rw [lastNonBlank]
      apply truncate_eq
      cases hrf : rfindO (fun l => !(trim l).isEmpty) (linesOf stdout) with
      | some x =>
        have hxmem : x ∈ linesOf stdout := (rfindO_eq_some hrf).1
        simp only [Option.getD_some]
        exact ascii_of_mem_trim (ascii_of_mem_linesOf h1 hxmem)
      | none =>
        simp only [Option.getD_none]
        intro b hb
        exact (by decide : ∀ c ∈ lit "Update failed", c < 128) b (mem_of_mem_trim hb)
  | none =>
    have hblank : ∀ x ∈ linesOf (combinedOf stdout stderr), trim x = [] := by
      intro x hx
      have := findO_eq_none hfind x hx
      rw [Bool.not_eq_false'] at this
      exact List.isEmpty_iff.mp this
    have hws : ∀ b ∈ combinedOf stdout stderr, isWS b = true := all_ws_of_blank_lines hblank
    have hstdout_ws : ∀ b ∈ stdout, isWS b = true := by
      intro b hb
      exact hws b (by rw [combinedOf]; exact List.mem_append_left _ hb)
    have htrimnil : trim stdout = [] := trim_eq_nil_iff.mpr hstdout_ws
    rw [detailSpec, firstNonBlank, hfind]
    simp only [Option.getD_none]
    have htrimlit : trim (lit "Unknown error") = lit "Unknown error" := by decide
    have hcond : (!(trim (lit "Unknown error")).isEmpty &&
        decide (trim (lit "Unknown error") ≠ trim stdout)) = true := by
      rw [htrimnil, htrimlit]
      decide
    rw [if_pos hcond]
    simp only [htrimlit]
    decide

theorem classify_failure_eval (app_id stdout stderr : ByteStr)
    (hclose : needsClosePhrase (combinedOf stdout stderr) = false)
    (h1 : ∀ b ∈ stdout, b < 128) (h2 : ∀ b ∈ stderr, b < 128) :
    classify_update_result app_id false stdout (combinedOf stdout stderr) =
      some (Except.error (lit "FAILURE:" ++ app_id ++ lit " - " ++
        detailSpec stdout (combinedOf stdout stderr))) := by
  rw [classify_update_result, if_neg (by rw [hclose]; exact Bool.false_ne_true)]
  rw [if_neg Bool.false_ne_true, extract_error_spec stdout stderr h1 h2]
  rfl

theorem findIdxO_eq_none {p : ByteStr → Bool} : ∀ ls : List ByteStr,
    (∀ l ∈ ls, p l = false) → findIdxO p ls = none
  | [], _ => rfl
  | l :: rest, h => by
    rw [findIdxO_cons, if_neg (by rw [h l (List.mem_cons_self l rest)]; exact Bool.false_ne_true),
      findIdxO_eq_none rest (fun x hx => h x (List.mem_cons_of_mem l hx))]
    rfl

/-! ## The claims -/

/-- Claim C1: for every well-formed input made of a header line, a dash
separator line and N data rows (with an optional summary footer),
`parse_winget_output` returns `Ok` with exactly the N records in input order,
each field being the whitespace-trimmed slice of its row at the byte offsets
of the labels `Id`, `Version`, `Available`, `Source` found in the header
(`name = [0, id_offset)`); a name containing spaces is preserved intact. -/
theorem c1_wellformed_parse (h : ByteStr) (m : Nat) (rows footer : List ByteStr)
    (L : ColumnLayout) (Hh : goodHeader h L) (Hm : 20 < m) (Hr : ∀ r ∈ rows, goodRow L r)
    (Hf : goodFooter footer) :
    parse_winget_output (blockText h m rows footer) =
      some (Except.ok (rows.map (expectedRecord L))) := by
  rw [parse_winget_output, pipelineLines_block h m rows footer L Hh Hm Hr Hf]
  exact parseLines_block h m rows footer L Hh Hm Hr Hf

/-- Witness for C1 at a concrete block with a multi-word name. -/
theorem c1_witness :
    parse_winget_output (blockText (lit "Name Id Version Available Source") 21
        [lit "A B  ab 1.0     2.0       src"] [lit "1 upgrades available."]) =
      some (Except.ok [⟨lit "A B", lit "ab", lit "1.0", lit "2.0", lit "src"⟩]) :=
  (c1_wellformed_parse (lit "Name Id Version Available Source") 21
    [lit "A B  ab 1.0     2.0       src"] [lit "1 upgrades available."] ⟨5, 8, 16, 26⟩
    (by decide) (by decide) (by decide) (by decide)).trans (by decide)

/-- Counterexample to C2 as stated: on a line starting with a two-byte UTF-8
character (`é` = `[195, 169]`) and a layout whose id offset falls inside that
character, `parse_app_line` panics (modelled by `none`) instead of completing. -/
theorem c2_counterexample : parse_app_line [195, 169, 98] ⟨1, 2, 3, 3⟩ = none := by decide

/-- Claim C2 (amended): for every line and every layout with nondecreasing
offsets whose clamped offsets fall on character boundaries of the line — in
particular every ASCII line — `parse_app_line` completes without panic:
a line no longer than the id offset yields no record (dropped, not an error),
and a line shorter than the trailing offsets yields empty trailing fields. -/
theorem c2_total_amended (line : ByteStr) (L : ColumnLayout) (hmono : monotone L)
    (hb : rowBoundaries L line) :
    (parse_app_line line L).isSome = true ∧
      (line.length ≤ L.id_col → parse_app_line line L = some none) ∧
      ∀ app, parse_app_line line L = some (some app) →
        (line.length ≤ L.available_col → app.available = [] ∧ app.source = []) ∧
        (line.length ≤ L.source_col → app.source = []) := by
  by_cases hlen : line.length ≤ L.id_col
  · have heq : parse_app_line line L = some none := by
      rw [parse_app_line, if_pos hlen]
    refine ⟨by rw [heq]; rfl, fun _ => heq, ?_⟩
    intro app happ
    rw [heq] at happ
    exact absurd (Option.some.inj happ) (by simp)
  · have hlen2 : L.id_col < line.length := not_le.mp hlen
    rw [parse_app_line_eval line L hmono hb hlen2]
    refine ⟨by split <;> rfl, fun hc => absurd hc hlen, ?_⟩
    intro app happ
    split at happ
    · exact absurd (Option.some.inj happ) (by simp)
    · obtain rfl : expectedRecord L line = app := Option.some.inj (Option.some.inj happ)
      obtain ⟨m1, m2, m3⟩ := hmono
      constructor
      · intro hle
        constructor
        · show expectedField line L.available_col L.source_col = []
          rw [expectedField, List.drop_eq_nil_of_le hle, List.take_nil]
          exact trim_nil
        · show trim (line.drop L.source_col) = []
          rw [List.drop_eq_nil_of_le (le_trans hle m3)]
          rfl
      · intro hle
        show trim (line.drop L.source_col) = []
        rw [List.drop_eq_nil_of_le hle]
        rfl

/-- Witness for C2 (amended) at a concrete ASCII line shorter than the
trailing column offsets. -/
theorem c2_witness :
    (parse_app_line (lit "a b") ⟨1, 3, 5, 9⟩).isSome = true ∧
      ((⟨lit "a", lit "b", [], [], []⟩ : UpdatableApp).available = [] ∧
        (⟨lit "a", lit "b", [], [], []⟩ : UpdatableApp).source = []) := by
  have hthm := c2_total_amended (lit "a b") ⟨1, 3, 5, 9⟩ (by decide) (by decide)
  exact ⟨hthm.1, (hthm.2.2 ⟨lit "a", lit "b", [], [], []⟩ (by decide)).1 (by decide)⟩

/-- Counterexample to C3 as stated: with non-success exit, stdout `"a\nb"` and
stderr `"disk full"`, the detail is the first non-blank line of the combined
output (`"a"`), not the first non-blank line of stderr (`"disk full"`). -/
theorem c3_counterexample :
    classify_update_result (lit "X") false (lit "a\nb")
        (combinedOf (lit "a\nb") (lit "disk full")) =
      some (Except.error (lit "FAILURE:X - a")) ∧
      (Except.error (lit "FAILURE:X - a") : Except ByteStr ByteStr) ≠
        Except.error (lit "FAILURE:X - disk full") := ⟨by decide, by decide⟩

/-- Claim C3 (amended): for every update invocation with a non-success exit
status, no needs-close phrase in the combined output, and ASCII captured
output, the classifier produces the generic failure `Err` whose detail is:
the first non-blank line of the combined stdout-then-stderr output if it
differs from stdout's trimmed content, else the last non-blank line of
stdout, else a fixed default string, truncated to its first 100 bytes.  The
ASCII restriction is necessary: on non-ASCII output, byte 100 of a diagnostic
longer than 100 bytes can fall inside a multi-byte character, and the
truncation then panics (modelled by `none` in `extract_error`) instead of
producing a generic failure. -/
theorem c3_generic_failure_detail (app_id stdout stderr : ByteStr)
    (hclose : needsClosePhrase (combinedOf stdout stderr) = false)
    (h1 : ∀ b ∈ stdout, b < 128) (h2 : ∀ b ∈ stderr, b < 128) :
    classify_update_result app_id false stdout (combinedOf stdout stderr) =
      some (Except.error (lit "FAILURE:" ++ app_id ++ lit " - " ++
        detailSpec stdout (combinedOf stdout stderr))) :=
  classify_failure_eval app_id stdout stderr hclose h1 h2

/-- Witness for C3 (amended): non-success exit with stderr `"disk full"` and
empty stdout yields the generic failure with detail `"disk full"`. -/
theorem c3_witness :
    classify_update_result (lit "Test.App") false (lit "")
        (combinedOf (lit "") (lit "disk full")) =
      some (Except.error (lit "FAILURE:Test.App - disk full")) :=
  (c3_generic_failure_detail (lit "Test.App") (lit "") (lit "disk full")
    (by decide) (by decide) (by decide)).trans (by decide)

/-- Counterexample to C4 as stated: the input `"a\n"` contains no carriage
return, yet the sanitizer returns `"a"`, dropping the trailing newline. -/
theorem c4_counterexample :
    sanitize_output (lit "a\n") = lit "a" ∧ (lit "a" : ByteStr) ≠ lit "a\n" :=
  ⟨by decide, by decide⟩

/-- Claim C4 (amended): on carriage-return-free input the sanitizer only
removes a single trailing newline (so it is a no-op on inputs not ending in a
newline); and on input whose lines have no pair of adjacent non-empty all-dash
lines, the unwrapper returns the input unchanged. -/
theorem c4_idempotence_amended (s : ByteStr) :
    ((13 : Nat) ∉ s → sanitize_output s = stripNL s) ∧
      (List.Chain' NoPairRel (linesOf s) → unwrap_output s = s) :=
  ⟨fun h => sanitize_output_noCR h,
    fun h => unwrap_output_of_detect_none (detect_none_chain _ h)⟩

/-- Witness for C4 (amended) at a concrete two-line input. -/
theorem c4_witness :
    sanitize_output (lit "ab\ncd") = stripNL (lit "ab\ncd") ∧
      unwrap_output (lit "ab\ncd") = lit "ab\ncd" := by
  have hlines : linesOf (lit "ab\ncd") = [lit "ab", lit "cd"] := by decide
  refine ⟨(c4_idempotence_amended (lit "ab\ncd")).1 (by decide),
    (c4_idempotence_amended (lit "ab\ncd")).2 ?_⟩
  rw [hlines]
  exact List.chain'_pair.mpr (by decide)

/-- Counterexample to C5 as stated: a block whose header (40 bytes) is longer
than the wrap width 30 but whose separator (25 dashes) is not: every line
longer than 30 is split into two physical lines (first fragment exactly 30,
remainder shorter), yet parsing the wrapped text fails with a missing-column
error while parsing the original yields one record. -/
theorem c5_counterexample :
    parse_winget_output (joinNL (wrapLines 30
        (blockLines (lit "Name Id Version Available Source        ") 25
          [lit "GC   g.c1.0     2.0       win"] [lit "1 upgrades available."]))) =
      some (Except.error (lit "Missing Source column in winget output")) ∧
    parse_winget_output (blockText (lit "Name Id Version Available Source        ") 25
        [lit "GC   g.c1.0     2.0       win"] [lit "1 upgrades available."]) =
      some (Except.ok [⟨lit "GC", lit "g.c", lit "1.0", lit "2.0", lit "win"⟩]) ∧
    some (Except.error (lit "Missing Source column in winget output")) ≠
      some (Except.ok [(⟨lit "GC", lit "g.c", lit "1.0", lit "2.0", lit "win"⟩ :
        UpdatableApp)]) :=
  ⟨by decide, by decide, by decide⟩

/-- Claim C5 (amended): for a well-formed block wrapped at width `W`, provided
wrapping is detectable and reversible — `0 < W`, the separator is longer than
`W` but shorter than `2*W`, no logical line has length exactly `W` or at least
`2*W`, and no fragment of the wrapped header is all dashes — parsing the
wrapped text yields exactly the same result as parsing the original text. -/
theorem c5_roundtrip_amended (h : ByteStr) (m : Nat) (rows footer : List ByteStr)
    (L : ColumnLayout) (W : Nat) (Hh : goodHeader h L) (Hm : 20 < m)
    (Hr : ∀ r ∈ rows, goodRow L r) (Hf : goodFooter footer) (hW : 0 < W) (hWm : W < m)
    (hm2 : m < 2 * W) (hfrag : ∀ f ∈ wrapLine W h, allDash f = false)
    (hlens : ∀ l ∈ blockLines h m rows footer, l.length ≠ W ∧ l.length < 2 * W) :
    parse_winget_output (joinNL (wrapLines W (blockLines h m rows footer))) =
      parse_winget_output (blockText h m rows footer) := by
  rw [parse_winget_output, parse_winget_output,
    pipelineLines_wrapped_block h m rows footer L W Hh Hm Hr Hf hW hWm hm2 hfrag hlens,
    pipelineLines_block h m rows footer L Hh Hm Hr Hf]

/-- Witness for C5 (amended): the concrete block of the C1 witness wrapped at
width 20 parses identically to the unwrapped block. -/
theorem c5_witness :
    parse_winget_output (joinNL (wrapLines 20
        (blockLines (lit "Name Id Version Available Source") 21
          [lit "A B  ab 1.0     2.0       src"] [lit "1 upgrades available."]))) =
      parse_winget_output (blockText (lit "Name Id Version Available Source") 21
        [lit "A B  ab 1.0     2.0       src"] [lit "1 upgrades available."]) :=
  c5_roundtrip_amended (lit "Name Id Version Available Source") 21
    [lit "A B  ab 1.0     2.0       src"] [lit "1 upgrades available."] ⟨5, 8, 16, 26⟩ 20
    (by decide) (by decide) (by decide) (by decide) (by decide) (by decide) (by decide)
    (by decide) (by decide)

/-- Claim C6: whenever the combined stdout+stderr contains a needs-close
phrase, the classifier returns the recoverable `Ok` needs-close message for
that package id, regardless of the exit status, before any other rule. -/
theorem c6_needs_close (app_id : ByteStr) (success : Bool) (stdout combined : ByteStr)
    (h : needsClosePhrase combined = true) :
    classify_update_result app_id success stdout combined =
      some (Except.ok (lit "[!] " ++ app_id ++
        lit " - needs to be closed before updating")) := by
  rw [classify_update_result, if_pos h]

/-- Witness for C6 at a concrete invocation with non-success exit status. -/
theorem c6_witness :
    classify_update_result (lit "Test.App") false (lit "")
        (lit "application must be closed before updating") =
      some (Except.ok (lit "[!] Test.App - needs to be closed before updating")) :=
  (c6_needs_close (lit "Test.App") false (lit "")
    (lit "application must be closed before updating") (by decide)).trans (by decide)

/-- Counterexample to C7 as stated: no physical line of this input contains
the three header labels together, yet parsing returns a hard error — the
unwrap stage glues the dash lines and the two fragments into one line that
does contain `Name`, `Id` and `Version` but lacks `Available`. -/
theorem c7_counterexample :
    ((linesOf (joinNL [List.replicate 25 45, List.replicate 25 45,
        lit "Name Id xxxxxxxxxxxxxVers", lit "ion"])).all fun l => !headerPred l) = true ∧
    parse_winget_output (joinNL [List.replicate 25 45, List.replicate 25 45,
        lit "Name Id xxxxxxxxxxxxxVers", lit "ion"]) =
      some (Except.error (lit "Missing Available column in winget output")) :=
  ⟨by decide, by decide⟩

/-- Claim C7 (amended): for every input in which, after sanitizing and
unwrapping, no line contains the header labels `Name`, `Id` and `Version`
together, `parse_winget_output` returns `Ok` with the empty sequence — never
an error. -/
theorem c7_no_header_amended (s : ByteStr)
    (h : ∀ l ∈ pipelineLines s, headerPred l = false) :
    parse_winget_output s = some (Except.ok []) := by
  rw [parse_winget_output, parseLines_eq_of_no_header (findIdxO_eq_none _ h)]

/-- Witness for C7 (amended) at winget's no-update output. -/
theorem c7_witness :
    parse_winget_output (lit "No applicable upgrade found.") = some (Except.ok []) :=
  c7_no_header_amended (lit "No applicable upgrade found.") (by decide)

/-- Claim C8: `parse_winget_output` returns `Err` if and only if a header line
was located but one of the required column labels (`Id`, `Version`,
`Available`, `Source`) cannot be found within it; no other condition makes
parsing return an error. -/
theorem c8_error_iff (s : ByteStr) :
    (∃ e, parse_winget_output s = some (Except.error e)) ↔
      ∃ idx, findIdxO headerPred (pipelineLines s) = some idx ∧
        (findSub (lit "Id") ((pipelineLines s).getD idx []) = none ∨
          findSub (lit "Version") ((pipelineLines s).getD idx []) = none ∨
          findSub (lit "Available") ((pipelineLines s).getD idx []) = none ∨
          findSub (lit "Source") ((pipelineLines s).getD idx []) = none) := by
  rw [parse_winget_output]
  cases hidx : findIdxO headerPred (pipelineLines s) with
  | none =>
    rw [parseLines_eq_of_no_header hidx]
    constructor
    · rintro ⟨e, he⟩
      exact absurd (Option.some.inj he) (by simp)
    · rintro ⟨idx, hix, _⟩
      exact absurd hix (by simp)
  | some idx =>
    rw [parseLines_eq_of_header hidx]
    cases h1 : findSub (lit "Id") ((pipelineLines s).getD idx []) with
    | none =>
      exact ⟨fun _ => ⟨idx, rfl, Or.inl h1⟩, fun _ => ⟨_, rfl⟩⟩
    | some ic =>
      cases h2 : findSub (lit "Version") ((pipelineLines s).getD idx []) with
      | none =>
        exact ⟨fun _ => ⟨idx, rfl, Or.inr (Or.inl h2)⟩, fun _ => ⟨_, rfl⟩⟩
      | some vc =>
        cases h3 : findSub (lit "Available") ((pipelineLines s).getD idx []) with
        | none =>
          exact ⟨fun _ => ⟨idx, rfl, Or.inr (Or.inr (Or.inl h3))⟩, fun _ => ⟨_, rfl⟩⟩
        | some ac =>
          cases h4 : findSub (lit "Source") ((pipelineLines s).getD idx []) with
          | none =>
            exact ⟨fun _ => ⟨idx, rfl, Or.inr (Or.inr (Or.inr h4))⟩, fun _ => ⟨_, rfl⟩⟩
          | some sc =>
            constructor
            · rintro ⟨e, he⟩
              have he2 : (collectApps ⟨ic, vc, ac, sc⟩
                  ((pipelineLines s).drop (dataStart (pipelineLines s) idx))).map Except.ok =
                  some (Except.error e) := he
              rcases hcoll : collectApps ⟨ic, vc, ac, sc⟩
                  ((pipelineLines s).drop (dataStart (pipelineLines s) idx)) with _ | apps
              · rw [hcoll] at he2
                exact absurd he2 (by simp)
              · rw [hcoll] at he2
                exact absurd (Option.some.inj he2) (by simp)
            · rintro ⟨idx2, hix2, hdisj⟩
              obtain rfl : idx = idx2 := Option.some.inj hix2
              rcases hdisj with hx | hx | hx | hx
              · rw [h1] at hx
                exact absurd hx (by simp)
              · rw [h2] at hx
                exact absurd hx (by simp)
              · rw [h3] at hx
                exact absurd hx (by simp)
              · rw [h4] at hx
                exact absurd hx (by simp)

/-- Witness for C8: a header line lacking the `Available` label makes parsing
return an error. -/
theorem c8_witness :
    ∃ e, parse_winget_output (lit "Name Id Version") = some (Except.error e) :=
  (c8_error_iff (lit "Name Id Version")).mpr ⟨0, by decide, by decide⟩

/-- Claim C9: every record in an `Ok` result of `parse_winget_output` has a
non-empty name and a non-empty id (rows violating this are dropped, never
turned into errors). -/
theorem c9_name_id_invariant (s : ByteStr) (apps : List UpdatableApp)
    (h : parse_winget_output s = some (Except.ok apps)) :
    ∀ a ∈ apps, a.name ≠ [] ∧ a.id ≠ [] := by
  rw [parse_winget_output] at h
  cases hidx : findIdxO headerPred (pipelineLines s) with
  | none =>
    rw [parseLines_eq_of_no_header hidx] at h
    obtain rfl : ([] : List UpdatableApp) = apps := Except.ok.inj (Option.some.inj h)
    intro a ha
    exact absurd ha (List.not_mem_nil a)
  | some idx =>
    rw [parseLines_eq_of_header hidx] at h
    cases h1 : findSub (lit "Id") ((pipelineLines s).getD idx []) with
    | none =>
      rw [h1] at h
      exact absurd (Option.some.inj h) (by simp)
    | some ic =>
      cases h2 : findSub (lit "Version") ((pipelineLines s).getD idx []) with
      | none =>
        rw [h1, h2] at h
        exact absurd (Option.some.inj h) (by simp)
      | some vc =>
        cases h3 : findSub (lit "Available") ((pipelineLines s).getD idx []) with
        | none =>
          rw [h1, h2, h3] at h
          exact absurd (Option.some.inj h) (by simp)
        | some ac =>
          cases h4 : findSub (lit "Source") ((pipelineLines s).getD idx []) with
          | none =>
            rw [h1, h2, h3, h4] at h
            exact absurd (Option.some.inj h) (by simp)
          | some sc =>
            rw [h1, h2, h3, h4] at h
            have h5 : (collectApps ⟨ic, vc, ac, sc⟩
                ((pipelineLines s).drop (dataStart (pipelineLines s) idx))).map Except.ok =
                some (Except.ok apps) := h
            rcases hcoll : collectApps ⟨ic, vc, ac, sc⟩
                ((pipelineLines s).drop (dataStart (pipelineLines s) idx)) with _ | xs
            · rw [hcoll] at h5
              exact absurd h5 (by simp)
            · rw [hcoll] at h5
              obtain rfl : xs = apps := Except.ok.inj (Option.some.inj h5)
              exact collectApps_name_id _ _ xs hcoll

/-- Witness for C9 at the concrete block of the C1 witness. -/
theorem c9_witness :
    (⟨lit "A B", lit "ab", lit "1.0", lit "2.0", lit "src"⟩ : UpdatableApp).name ≠ [] ∧
      (⟨lit "A B", lit "ab", lit "1.0", lit "2.0", lit "src"⟩ : UpdatableApp).id ≠ [] :=
  c9_name_id_invariant
    (blockText (lit "Name Id Version Available Source") 21
      [lit "A B  ab 1.0     2.0       src"] [lit "1 upgrades available."])
    [⟨lit "A B", lit "ab", lit "1.0", lit "2.0", lit "src"⟩] (by decide)
    ⟨lit "A B", lit "ab", lit "1.0", lit "2.0", lit "src"⟩ (by decide)

/-- Claim C10: whenever the classifier returns a result, the result is the
`Err` variant exactly when the exit status is non-success and the combined
output contains no needs-close phrase; every other outcome, including
not-found (a `FAILURE:`-prefixed `Ok`) and needs-close, is delivered as `Ok`. -/
theorem c10_err_iff (app_id : ByteStr) (success : Bool) (stdout combined : ByteStr)
    (r : Except ByteStr ByteStr)
    (h : classify_update_result app_id success stdout combined = some r) :
    (∃ e, r = Except.error e) ↔
      (success = false ∧ needsClosePhrase combined = false) := by
  by_cases hclose : needsClosePhrase combined = true
  · rw [classify_update_result, if_pos hclose] at h
    obtain rfl := Option.some.inj h
    constructor
    · rintro ⟨e, he⟩
      exact absurd he (by simp)
    · rintro ⟨_, hc⟩
      rw [hclose] at hc
      exact absurd hc (by simp)
  · have hcf : needsClosePhrase combined = false := by
      rwa [Bool.not_eq_true] at hclose
    cases success with
    | true =>
      rw [classify_update_result, if_neg hclose, if_pos rfl] at h
      obtain rfl := Option.some.inj h
      constructor
      · rintro ⟨e, he⟩
        exact absurd he (by simp)
      · rintro ⟨hs, _⟩
        exact absurd hs (by simp)
    | false =>
      rw [classify_update_result, if_neg hclose, if_neg (by simp)] at h
      rcases hx : extract_error stdout combined with _ | msg
      · rw [hx] at h
        exact absurd h (by simp)
      · rw [hx] at h
        obtain rfl := Option.some.inj h
        exact ⟨fun _ => ⟨rfl, hcf⟩, fun _ => ⟨_, rfl⟩⟩

/-- Witness for C10 at a concrete non-success invocation. -/
theorem c10_witness :
    (∃ e, (Except.error (lit "FAILURE:A - x") : Except ByteStr ByteStr) = Except.error e) ↔
      (false = false ∧ needsClosePhrase (lit "x\n") = false) :=
  c10_err_iff (lit "A") false (lit "x") (lit "x\n") (Except.error (lit "FAILURE:A - x"))
    (by decide)

end WingetSpec
